import Mathlib

/-!
A verification development for `directory_structure.py`, a tool that
snapshots a directory tree into a nested JSON document (or a flat markdown
document) and can replay a JSON document back onto a live directory tree.

Modelling conventions (POSIX platform, as the tool is run on Linux):
* The filesystem is a finite tree (`FSEntry`): files hold raw bytes
  (`List Nat`), directories hold an ordered list of named children, in
  filesystem listing order (`os.listdir` order = insertion order here).
* Paths are lists of name segments; `os.path.join(p, name)` with a plain
  entry name is appending one segment.  Entry names are treated as atomic
  segments (real listdir names never contain a path separator).
* Python text I/O is modelled faithfully: reading a file decodes its bytes
  as UTF-8 (strictly, or with `errors='ignore'` where the source says so)
  and then applies universal-newline translation (`\r\n` and `\r` become
  `\n`); writing encodes the string as UTF-8 (on POSIX `os.linesep = '\n'`,
  so writing translates nothing).
* `json.dump`/`json.load` round-trip a nested dict-of-strings structure
  exactly (keys unique, insertion order preserved), so the persisted
  structured document is identified with the in-memory `JValue` tree.
-/

/-! ### Python UTF-8 codec

`pyUtf8Decode` models CPython's UTF-8 decoder: strict mode rejects any
invalid sequence; `errors='ignore'` drops each maximal invalid subpart;
`errors='replace'` substitutes U+FFFD for each maximal invalid subpart.
Overlong encodings, surrogates and values above U+10FFFF are invalid.
-/

inductive DecMode where
  | strict
  | ignore
  | replace

/-- Is `b` a UTF-8 continuation byte? -/
def contB (b : Nat) : Bool := 0x80 ≤ b && b ≤ 0xBF

/-- Valid second byte for a three-byte sequence starting with `b0`
(excludes overlongs for `0xE0` and surrogates for `0xED`). -/
def sec3 (b0 b1 : Nat) : Bool :=
  if b0 = 0xE0 then 0xA0 ≤ b1 && b1 ≤ 0xBF
  else if b0 = 0xED then 0x80 ≤ b1 && b1 ≤ 0x9F
  else contB b1

/-- Valid second byte for a four-byte sequence starting with `b0`
(excludes overlongs for `0xF0` and values above U+10FFFF for `0xF4`). -/
def sec4 (b0 b1 : Nat) : Bool :=
  if b0 = 0xF0 then 0x90 ≤ b1 && b1 ≤ 0xBF
  else if b0 = 0xF4 then 0x80 ≤ b1 && b1 ≤ 0x8F
  else contB b1

/-- Code point of a two-byte sequence. -/
def cp2 (b0 b1 : Nat) : Nat := (b0 - 0xC0) * 64 + (b1 - 0x80)

/-- Code point of a three-byte sequence. -/
def cp3 (b0 b1 b2 : Nat) : Nat := (b0 - 0xE0) * 4096 + (b1 - 0x80) * 64 + (b2 - 0x80)

/-- Code point of a four-byte sequence. -/
def cp4 (b0 b1 b2 b3 : Nat) : Nat :=
  (b0 - 0xF0) * 262144 + (b1 - 0x80) * 4096 + (b2 - 0x80) * 64 + (b3 - 0x80)

/-- What a decode error contributes, given the decode `k` of the input
after the invalid subpart: strict mode fails, ignore drops, replace
substitutes U+FFFD. -/
def errCont (m : DecMode) (k : Option (List Char)) : Option (List Char) :=
  match m with
  | .strict => none
  | .ignore => k
  | .replace => k.map (Char.ofNat 0xFFFD :: ·)

/-- CPython's UTF-8 decoder over a byte list, parameterised by the error
mode.  On an invalid maximal subpart it resumes right after that subpart. -/
def pyUtf8Decode (m : DecMode) : List Nat → Option (List Char)
  | [] => some []
  | [b0] =>
    if b0 < 0x80 then (pyUtf8Decode m []).map (Char.ofNat b0 :: ·)
    else errCont m (pyUtf8Decode m [])
  | [b0, b1] =>
    if b0 < 0x80 then (pyUtf8Decode m [b1]).map (Char.ofNat b0 :: ·)
    else if b0 < 0xC2 then errCont m (pyUtf8Decode m [b1])
    else if b0 < 0xE0 then
      if contB b1 then (pyUtf8Decode m []).map (Char.ofNat (cp2 b0 b1) :: ·)
      else errCont m (pyUtf8Decode m [b1])
    else if b0 < 0xF0 then
      if sec3 b0 b1 then errCont m (pyUtf8Decode m [])
      else errCont m (pyUtf8Decode m [b1])
    else if b0 < 0xF5 then
      if sec4 b0 b1 then errCont m (pyUtf8Decode m [])
      else errCont m (pyUtf8Decode m [b1])
    else errCont m (pyUtf8Decode m [b1])
  | [b0, b1, b2] =>
    if b0 < 0x80 then (pyUtf8Decode m [b1, b2]).map (Char.ofNat b0 :: ·)
    else if b0 < 0xC2 then errCont m (pyUtf8Decode m [b1, b2])
    else if b0 < 0xE0 then
      if contB b1 then (pyUtf8Decode m [b2]).map (Char.ofNat (cp2 b0 b1) :: ·)
      else errCont m (pyUtf8Decode m [b1, b2])
    else if b0 < 0xF0 then
      if sec3 b0 b1 then
        if contB b2 then (pyUtf8Decode m []).map (Char.ofNat (cp3 b0 b1 b2) :: ·)
        else errCont m (pyUtf8Decode m [b2])
      else errCont m (pyUtf8Decode m [b1, b2])
    else if b0 < 0xF5 then
      if sec4 b0 b1 then
        if contB b2 then errCont m (pyUtf8Decode m [])
        else errCont m (pyUtf8Decode m [b2])
      else errCont m (pyUtf8Decode m [b1, b2])
    else errCont m (pyUtf8Decode m [b1, b2])
  | b0 :: b1 :: b2 :: b3 :: rest =>
    if b0 < 0x80 then (pyUtf8Decode m (b1 :: b2 :: b3 :: rest)).map (Char.ofNat b0 :: ·)
    else if b0 < 0xC2 then errCont m (pyUtf8Decode m (b1 :: b2 :: b3 :: rest))
    else if b0 < 0xE0 then
      if contB b1 then (pyUtf8Decode m (b2 :: b3 :: rest)).map (Char.ofNat (cp2 b0 b1) :: ·)
      else errCont m (pyUtf8Decode m (b1 :: b2 :: b3 :: rest))
    else if b0 < 0xF0 then
      if sec3 b0 b1 then
        if contB b2 then (pyUtf8Decode m (b3 :: rest)).map (Char.ofNat (cp3 b0 b1 b2) :: ·)
        else errCont m (pyUtf8Decode m (b2 :: b3 :: rest))
      else errCont m (pyUtf8Decode m (b1 :: b2 :: b3 :: rest))
    else if b0 < 0xF5 then
      if sec4 b0 b1 then
        if contB b2 then
          if contB b3 then (pyUtf8Decode m rest).map (Char.ofNat (cp4 b0 b1 b2 b3) :: ·)
          else errCont m (pyUtf8Decode m (b3 :: rest))
        else errCont m (pyUtf8Decode m (b2 :: b3 :: rest))
      else errCont m (pyUtf8Decode m (b1 :: b2 :: b3 :: rest))
    else errCont m (pyUtf8Decode m (b1 :: b2 :: b3 :: rest))

/-- Total version of the `errors='ignore'` decode (it never fails). -/
def pyDecodeIgnore (l : List Nat) : List Char := (pyUtf8Decode .ignore l).getD []

/-- Total version of the `errors='replace'` decode (it never fails). -/
def pyDecodeReplace (l : List Nat) : List Char := (pyUtf8Decode .replace l).getD []

/-- UTF-8 encoding of one code point (as CPython's encoder produces for
any valid `str` character). -/
def utf8EncodeChar (v : Nat) : List Nat :=
  if v < 0x80 then [v]
  else if v < 0x800 then [0xC0 + v / 64, 0x80 + v % 64]
  else if v < 0x10000 then [0xE0 + v / 4096, 0x80 + v / 64 % 64, 0x80 + v % 64]
  else [0xF0 + v / 262144, 0x80 + v / 4096 % 64, 0x80 + v / 64 % 64, 0x80 + v % 64]

def utf8EncodeList : List Char → List Nat
  | [] => []
  | c :: cs => utf8EncodeChar c.toNat ++ utf8EncodeList cs

/-- Bytes written by Python text-mode output for string `s` (UTF-8,
`os.linesep = '\n'` so newline translation is the identity on write). -/
def utf8Encode (s : String) : List Nat := utf8EncodeList s.data

/-! ### Universal newlines and `str.splitlines` -/

/-- Universal-newline translation applied by Python text-mode reads:
`\r\n` and lone `\r` become `\n`. -/
def univNl : List Char → List Char
  | [] => []
  | [c] => if c = '\r' then ['\n'] else [c]
  | c :: d :: rest =>
    if c = '\r' then
      if d = '\n' then '\n' :: univNl rest else '\n' :: univNl (d :: rest)
    else c :: univNl (d :: rest)

/-- The line-boundary characters recognised by `str.splitlines`. -/
def isLineBreak (c : Char) : Bool :=
  c = '\n' || c = '\r' || c = '\x0b' || c = '\x0c' ||
  c = '\x1c' || c = '\x1d' || c = '\x1e' || c = '\u0085' ||
  c = '\u2028' || c = '\u2029'

/-- Worker for `str.splitlines`: `cur` is the reversed current segment. -/
def pySplitlinesAux : List Char → List Char → List (List Char)
  | cur, [] => if cur.isEmpty then [] else [cur.reverse]
  | cur, [c] =>
    if isLineBreak c then cur.reverse :: pySplitlinesAux [] []
    else pySplitlinesAux (c :: cur) []
  | cur, c :: d :: rest =>
    if c = '\r' && d = '\n' then cur.reverse :: pySplitlinesAux [] rest
    else if isLineBreak c then cur.reverse :: pySplitlinesAux [] (d :: rest)
    else pySplitlinesAux (c :: cur) (d :: rest)

/-- Python `str.splitlines()`. -/
def pySplitlines (s : String) : List String :=
  (pySplitlinesAux [] s.data).map String.mk

example : pySplitlines "a" = ["a"] := rfl
example : pySplitlines "a\n" = ["a"] := rfl
example : pySplitlines "" = [] := rfl
example : pySplitlines "\n" = [""] := rfl
example : pySplitlines "a\r\nb" = ["a", "b"] := rfl
example : pySplitlines "a\nb\nc\n" = ["a", "b", "c"] := rfl
example : univNl ['a', '\r', '\n', 'b', '\r'] = ['a', '\n', 'b', '\n'] := rfl
example : pyUtf8Decode .ignore [0xFF, 0x61] = some ['a'] := rfl
example : pyUtf8Decode .replace [0xFF, 0x61] = some ['\uFFFD', 'a'] := rfl
example : pyUtf8Decode .strict [0xFF, 0x61] = none := rfl
example : pyUtf8Decode .strict (utf8Encode "héllo₤𝄞") = some ("héllo₤𝄞".data) := rfl
example : pyUtf8Decode .ignore [0xE0, 0xA0] = some [] := rfl
example : pyUtf8Decode .replace [0xE0, 0x80, 0x41] = some ['\uFFFD', '\uFFFD', 'A'] := rfl

/-! ### `fnmatch` (shell-style glob matching, POSIX `normcase` = identity)

CPython's `fnmatch.fnmatch` translates the pattern to a regex; we model the
same semantics directly: `*` matches any run, `?` any one character,
`[seq]` / `[!seq]` a (negated) character class with `a-b` ranges, an
unterminated `[` is a literal. -/

/-- Membership of `c` in the body of a character class (regex semantics:
`a-b` is a code-point range, a `-` at either edge is literal). -/
def classMemb : List Char → Char → Bool
  | [], _ => false
  | a :: '-' :: b :: rest, c =>
    (decide (a.toNat ≤ c.toNat) && decide (c.toNat ≤ b.toNat)) || classMemb rest c
  | a :: rest, c => (a == c) || classMemb rest c

/-- Scan for the closing `]` of a character class; returns the class body
(prepended with `acc` reversed) and the remaining pattern. -/
def scanClass : List Char → List Char → Option (List Char × List Char)
  | _, [] => none
  | acc, c :: rest =>
    if c = ']' then some (acc.reverse, rest) else scanClass (c :: acc) rest

/-- Parse a character class after an opening `[`: handles a leading `!`
(negation) and a leading `]` (literal member).  `none` when there is no
closing `]` (the `[` is then a literal). -/
def fnSet (l : List Char) : Option (Bool × List Char × List Char) :=
  match l with
  | [] => none
  | c :: r =>
    if c = '!' then
      match r with
      | [] => none
      | d :: r2 =>
        if d = ']' then
          match scanClass [']'] r2 with
          | some pr => some (true, pr.1, pr.2)
          | none => none
        else
          match scanClass [] (d :: r2) with
          | some pr => some (true, pr.1, pr.2)
          | none => none
    else
      if c = ']' then
        match scanClass [']'] r with
        | some pr => some (false, pr.1, pr.2)
        | none => none
      else
        match scanClass [] (c :: r) with
        | some pr => some (false, pr.1, pr.2)
        | none => none

theorem scanClass_len {acc l inner rest} (h : scanClass acc l = some (inner, rest)) :
    rest.length < l.length := by
  induction l generalizing acc with
  | nil => simp [scanClass] at h
  | cons c cs ih =>
    rw [scanClass] at h
    by_cases hc : c = ']'
    · simp [hc] at h
      simp [h.2]
    · simp only [hc, if_false] at h
      exact Nat.lt_trans (ih h) (Nat.lt_succ_self _)

theorem optPack {o : Option (List Char × List Char)} {b neg : Bool} {inner rest : List Char}
    (h : (match o with
          | some pr => some (b, pr.1, pr.2)
          | none => (none : Option (Bool × List Char × List Char))) = some (neg, inner, rest)) :
    o = some (inner, rest) := by
  match o with
  | none => simp at h
  | some (x, y) =>
    simp only at h
    injection h with h2
    rw [Prod.mk.injEq, Prod.mk.injEq] at h2
    rw [h2.2.1, h2.2.2]

theorem fnSet_len {l : List Char} {neg : Bool} {inner rest : List Char}
    (h : fnSet l = some (neg, inner, rest)) : rest.length < l.length := by
  rw [fnSet.eq_def] at h
  split at h
  · exact absurd h (by simp)
  next c r =>
    split at h
    · split at h
      · exact absurd h (by simp)
      next d r2 =>
        split at h
        · have := scanClass_len (optPack h)
          simp only [List.length_cons]
          omega
        · have := scanClass_len (optPack h)
          simp only [List.length_cons] at this ⊢
          omega
    · split at h
      · have := scanClass_len (optPack h)
        simp only [List.length_cons]
        omega
      · have := scanClass_len (optPack h)
        simp only [List.length_cons] at this ⊢
        omega

/-- One token of a compiled glob pattern. -/
inductive GlobTok where
  | star : GlobTok
  | que : GlobTok
  | lit : Char → GlobTok
  | cls : Bool → List Char → GlobTok

/-- Tokenise a glob pattern. -/
def globToks : List Char → List GlobTok
  | [] => []
  | c :: ps =>
    if c = '*' then .star :: globToks ps
    else if c = '?' then .que :: globToks ps
    else if c = '[' then
      match h : fnSet ps with
      | some (neg, inner, rest) => .cls neg inner :: globToks rest
      | none => .lit '[' :: globToks ps
    else .lit c :: globToks ps
termination_by l => l.length
decreasing_by
  · simp
  · simp
  · simp only [List.length_cons]
    exact Nat.lt_trans (fnSet_len h) (Nat.lt_succ_self _)
  · simp
  · simp

/-- Match a tokenised glob pattern against a whole name. -/
def globMatch : List GlobTok → List Char → Bool
  | [], [] => true
  | [], _ :: _ => false
  | .star :: ps, [] => globMatch ps []
  | .star :: ps, c :: cs => globMatch ps (c :: cs) || globMatch (.star :: ps) cs
  | .que :: ps, _ :: cs => globMatch ps cs
  | .lit p :: ps, c :: cs => (p == c) && globMatch ps cs
  | .cls neg inner :: ps, c :: cs => ((classMemb inner c).xor neg) && globMatch ps cs
  | _ :: _, [] => false
termination_by p s => (p.length, s.length)

/-- Python `fnmatch.fnmatch(name, pattern)` (POSIX: `normcase` is the identity). -/
def fnmatch (nm pattern : String) : Bool := globMatch (globToks pattern.data) nm.data

/-- Python `should_exclude(item, exclusions)`: true iff `item` matches any
exclusion pattern. -/
def should_exclude (item : String) (exclusions : List String) : Bool :=
  exclusions.any (fun pattern => fnmatch item pattern)

example : fnmatch "a.tmp" "*.tmp" = true := by
  simp [fnmatch, globToks, globMatch, fnSet, scanClass, classMemb]
example : fnmatch "a7z" "a[0-9]z" = true := by
  simp [fnmatch, globToks, globMatch, fnSet, scanClass, classMemb]
example : fnmatch "a7z" "a[!0-9]z" = false := by
  simp [fnmatch, globToks, globMatch, fnSet, scanClass, classMemb]

/-! ### The filesystem model -/

mutual
inductive FSEntry where
  | file : List Nat → FSEntry
  | dir : FSEntries → FSEntry
inductive FSEntries where
  | nil : FSEntries
  | cons : String → FSEntry → FSEntries → FSEntries
end

/-- Look up a child by name. -/
def FSEntries.lookupName : FSEntries → String → Option FSEntry
  | .nil, _ => none
  | .cons m e rest, n => if m = n then some e else rest.lookupName n

/-- Bind a name to an entry: replace in place when the name is present,
append at the end otherwise (Python-dict / directory semantics). -/
def FSEntries.setName : FSEntries → String → FSEntry → FSEntries
  | .nil, n, x => .cons n x .nil
  | .cons m e rest, n, x => if m = n then .cons m x rest else .cons m e (rest.setName n x)

/-- The child names, in listing order. -/
def FSEntries.names : FSEntries → List String
  | .nil => []
  | .cons m _ rest => m :: rest.names

/-- Resolve a path relative to an entry. -/
def FSEntry.find : FSEntry → List String → Option FSEntry
  | e, [] => some e
  | .file _, _ :: _ => none
  | .dir es, n :: rest =>
    match es.lookupName n with
    | some e => e.find rest
    | none => none

/-- Python `os.makedirs(p)`: create every missing directory segment along `p`.
Fails (`NotADirectoryError`) if a file blocks an intermediate segment.
(Callers only invoke it when `p` does not already exist.) -/
def FSEntry.makedirs : FSEntry → List String → Option FSEntry
  | e, [] => some e
  | .file _, _ :: _ => none
  | .dir es, n :: rest =>
    match es.lookupName n with
    | some e => (e.makedirs rest).map (fun e' => FSEntry.dir (es.setName n e'))
    | none =>
      ((FSEntry.dir .nil).makedirs rest).map (fun e' => FSEntry.dir (es.setName n e'))

/-- Python `open(p, 'w')` + `write`: store bytes at path `p`.  Fails when the
parent does not exist or is a file, or when `p` is a directory. -/
def FSEntry.writeFile : FSEntry → List String → List Nat → Option FSEntry
  | _, [], _ => none
  | .file _, _ :: _, _ => none
  | .dir es, [n], b =>
    match es.lookupName n with
    | some (.dir _) => none
    | _ => some (.dir (es.setName n (.file b)))
  | .dir es, n :: m :: rest, b =>
    match es.lookupName n with
    | some e => (e.writeFile (m :: rest) b).map (fun e' => FSEntry.dir (es.setName n e'))
    | none => none

/-- Replace the subtree at an existing path (no-op if the path is absent);
used only to state lemmas, not part of the modelled program. -/
def FSEntry.setAt : FSEntry → List String → FSEntry → FSEntry
  | _, [], x => x
  | .file b, _ :: _, _ => .file b
  | .dir es, n :: rest, x =>
    match es.lookupName n with
    | some e => .dir (es.setName n (e.setAt rest x))
    | none => .dir es

/-! ### The parsed JSON document

`json.load` produces nested dicts with unique keys (later duplicate keys in
the JSON text overwrite earlier ones), in document order.  The reconciler
distinguishes only three shapes: strings, dicts, and everything else
(numbers, booleans, null, arrays), which it treats identically — passing
such a value to `f.write` raises `TypeError` — so the other kinds are
collapsed into one constructor `JValue.other`. -/

mutual
inductive JValue where
  | jstr : String → JValue
  | obj : JEntries → JValue
  | other : JValue
inductive JEntries where
  | nil : JEntries
  | cons : String → JValue → JEntries → JEntries
end

def JEntries.keys : JEntries → List String
  | .nil => []
  | .cons n _ rest => n :: rest.keys

/-- Serialization `save_structure_to_json` followed by `json.load` round-trips the
nested dict-of-strings structure exactly, so producing the persisted
structured document is modelled as the identity on the parsed tree. -/
def toStructuredDocument (doc : JValue) : JValue := doc

/-! ### The modelled program -/

/-- The error taxonomy surfaced by the modelled operations.  `ioError`
stands for the `OSError`s of failing creates/writes
(`NotADirectoryError`, `FileNotFoundError`); `malformedDocument` for the
`TypeError`/`AttributeError` raised when the document value at hand is
neither a string nor a dict. -/
inductive PyErr where
  | unicodeDecodeError
  | isADirectoryError
  | ioError
  | malformedDocument
deriving DecidableEq

/-- A reconciliation event, one per `logging.info` call of
`update_files_from_json` (the logged path text is omitted; `updated`
carries the two `len(….splitlines())` line counts). -/
inductive Event where
  | createdDir : Event
  | created : Event
  | updated : Nat → Nat → Event
deriving DecidableEq

/-- Python `load_exclusions(file_path)`: missing path gives no exclusions;
otherwise the file is read in text mode (strict UTF-8 plus universal
newlines) and split with `str.splitlines()`. -/
def load_exclusions (fs : FSEntry) (file_path : List String) : Except PyErr (List String) :=
  match fs.find file_path with
  | none => .ok []
  | some (.file b) =>
    match pyUtf8Decode .strict b with
    | none => .error .unicodeDecodeError
    | some cs => .ok (pySplitlines (String.mk (univNl cs)))
  | some (.dir _) => .error .isADirectoryError

/-- Python `directory_to_dict` over a directory's child list: excluded entries
are skipped, files are read with `errors='ignore'` (plus universal
newlines), directories recurse. -/
def directory_to_dict_entries : FSEntries → List String → JEntries
  | .nil, _ => .nil
  | .cons item e rest, exclusions =>
    if should_exclude item exclusions then directory_to_dict_entries rest exclusions
    else
      match e with
      | .dir es =>
        .cons item (.obj (directory_to_dict_entries es exclusions))
          (directory_to_dict_entries rest exclusions)
      | .file b =>
        .cons item (.jstr (String.mk (univNl (pyDecodeIgnore b))))
          (directory_to_dict_entries rest exclusions)

/-- Python `directory_to_dict(path, exclusions)`: `os.listdir` on a non-directory
raises, a directory produces the nested dict. -/
def directory_to_dict : FSEntry → List String → Option JValue
  | .file _, _ => none
  | .dir es, exclusions => some (.obj (directory_to_dict_entries es exclusions))

/-- Python `'\n'.join(items)`. -/
def strJoin (sep : String) : List String → String
  | [] => ""
  | [x] => x
  | x :: y :: rest => x ++ sep ++ strJoin sep (y :: rest)

/-- Python `pathlib.Path(p).suffix` of a path whose final component is `nm`:
the part from the last dot on, unless that dot is the first or absent, or
the name ends with the dot. -/
def pathSuffix (nm : String) : String :=
  if nm.data.contains '.' then
    let pre := nm.data.reverse.takeWhile (fun c => c != '.')
    if pre.length = 0 ∨ pre.length + 1 = nm.data.length then ""
    else String.mk ('.' :: pre.reverse)
  else ""

example : pathSuffix "a.py" = ".py" := by decide
example : pathSuffix "a.txt" = ".txt" := by decide
example : pathSuffix "noext" = "" := by decide
example : pathSuffix ".py" = "" := by decide
example : pathSuffix "a." = "" := by decide
example : pathSuffix "a.tar.gz" = ".gz" := by decide

/-- One file section of the markdown document:
`f'### {item_path}\n```python\n{file_content}\n```\n'` for `.py` files,
with an untagged fence otherwise.  `Path(item_path).suffix` only depends
on the last component `item`. -/
def mdFileSection (item_path : String) (item : String) (b : List Nat) : String :=
  if pathSuffix item = ".py" then
    "### " ++ item_path ++ "\n```python\n" ++ String.mk (univNl (pyDecodeIgnore b)) ++ "\n```\n"
  else
    "### " ++ item_path ++ "\n```\n" ++ String.mk (univNl (pyDecodeIgnore b)) ++ "\n```\n"

/-- The list `markdown_content` built by `directory_to_markdown` at one
directory level: one element per non-excluded entry — a file section for a
file, the whole joined sub-document for a directory.  `path` is the
directory's path string (`os.path.join` appends `'/' + item`). -/
def directory_to_markdown_items : FSEntries → List String → String → List String
  | .nil, _, _ => []
  | .cons item e rest, exclusions, path =>
    if should_exclude item exclusions then directory_to_markdown_items rest exclusions path
    else
      match e with
      | .dir es =>
        strJoin "\n" (directory_to_markdown_items es exclusions (path ++ "/" ++ item)) ::
          directory_to_markdown_items rest exclusions path
      | .file b =>
        mdFileSection (path ++ "/" ++ item) item b ::
          directory_to_markdown_items rest exclusions path

/-- Python `directory_to_markdown(path, exclusions)` = `'\n'.join(markdown_content)`. -/
def directory_to_markdown (es : FSEntries) (exclusions : List String) (path : String) : String :=
  strJoin "\n" (directory_to_markdown_items es exclusions path)

/-- Python `update_or_create_file(file_path, content)`: ensure the parent
directory exists (`os.makedirs` when absent), then create the file, or
overwrite it only when the existing decoded text differs, logging the
line-count delta. -/
def update_or_create_file (fs : FSEntry) (file_path : List String) (content : String) :
    Except PyErr (FSEntry × List Event) :=
  let dir_name := file_path.dropLast
  let step1 : Except PyErr (FSEntry × List Event) :=
    if (fs.find dir_name).isSome then .ok (fs, [])
    else
      match fs.makedirs dir_name with
      | some fs1 => .ok (fs1, [Event.createdDir])
      | none => .error .ioError
  match step1 with
  | .error e => .error e
  | .ok (fs1, evs) =>
    match fs1.find file_path with
    | some (.file b) =>
      match pyUtf8Decode .strict b with
      | none => .error .unicodeDecodeError
      | some cs =>
        let old_content := String.mk (univNl cs)
        if old_content ≠ content then
          match fs1.writeFile file_path (utf8Encode content) with
          | some fs2 =>
            .ok (fs2, evs ++
              [Event.updated (pySplitlines old_content).length (pySplitlines content).length])
          | none => .error .ioError
        else .ok (fs1, evs)
    | some (.dir _) => .error .isADirectoryError
    | none =>
      match fs1.writeFile file_path (utf8Encode content) with
      | some fs2 => .ok (fs2, evs ++ [Event.created])
      | none => .error .ioError

/-- Python `update_or_create_file(file_path, content)` when `content` is
neither a `str` nor a `dict` (an `.other` document value).  The call runs
the same code path as for a string: the parent directory is checked and
created, and an existing target is opened and read with strict UTF-8 —
so it can raise the decode, is-a-directory or I/O errors of that path.
The comparison `old_content != content` is unequal for a non-`str`
`content`, so `open(file_path, 'w')` is reached (truncating or creating
the file) and `f.write(content)` then raises `TypeError`, modelled — as
everywhere an error is raised — by an error result that abandons the
tree; per the spec's taxonomy of shape errors the `TypeError` is
reported as `malformedDocument`. -/
def update_or_create_file_other (fs : FSEntry) (file_path : List String) :
    Except PyErr (FSEntry × List Event) :=
  let dir_name := file_path.dropLast
  let step1 : Except PyErr (FSEntry × List Event) :=
    if (fs.find dir_name).isSome then .ok (fs, [])
    else
      match fs.makedirs dir_name with
      | some fs1 => .ok (fs1, [Event.createdDir])
      | none => .error .ioError
  match step1 with
  | .error e => .error e
  | .ok (fs1, _) =>
    match fs1.find file_path with
    | some (.file b) =>
      match pyUtf8Decode .strict b with
      | none => .error .unicodeDecodeError
      | some _ =>
        match fs1.writeFile file_path [] with
        | some _ => .error .malformedDocument
        | none => .error .ioError
    | some (.dir _) => .error .isADirectoryError
    | none =>
      match fs1.writeFile file_path [] with
      | some _ => .error .malformedDocument
      | none => .error .ioError

/-- Python `recurse_structure(structure, current_path)`: walk the document in
order; dict children recurse, string children go to
`update_or_create_file`, and a child of any other shape goes down the
same `update_or_create_file` path with a non-`str` content
(`update_or_create_file_other`), which always raises. -/
def recurse_structure : FSEntry → JEntries → List String → Except PyErr (FSEntry × List Event)
  | fs, .nil, _ => .ok (fs, [])
  | fs, .cons name content rest, current_path =>
    match content with
    | .obj sub =>
      match recurse_structure fs sub (current_path ++ [name]) with
      | .error e => .error e
      | .ok (fs1, evs1) =>
        match recurse_structure fs1 rest current_path with
        | .error e => .error e
        | .ok (fs2, evs2) => .ok (fs2, evs1 ++ evs2)
    | .jstr s =>
      match update_or_create_file fs (current_path ++ [name]) s with
      | .error e => .error e
      | .ok (fs1, evs1) =>
        match recurse_structure fs1 rest current_path with
        | .error e => .error e
        | .ok (fs2, evs2) => .ok (fs2, evs1 ++ evs2)
    | .other =>
      match update_or_create_file_other fs (current_path ++ [name]) with
      | .error e => .error e
      | .ok (fs1, evs1) =>
        match recurse_structure fs1 rest current_path with
        | .error e => .error e
        | .ok (fs2, evs2) => .ok (fs2, evs1 ++ evs2)

/-- Python `update_files_from_json(directory_path, json_path)` after `json.load`:
the target root is the model root.  A non-dict top level raises
(`AttributeError` on `.items()`), modelled as `malformedDocument`. -/
def update_files_from_json (fs : FSEntry) (doc : JValue) : Except PyErr (FSEntry × List Event) :=
  match doc with
  | .obj entries => recurse_structure fs entries []
  | _ => .error .malformedDocument

/-! ### Codec lemmas -/

/-- Validity bounds of a `Char`'s code point. -/
theorem charValid (c : Char) : c.toNat < 0xD800 ∨ (0xDFFF < c.toNat ∧ c.toNat < 0x110000) := by
  have h := c.valid
  have e : c.toNat = c.val.toNat := rfl
  unfold UInt32.isValidChar Nat.isValidChar at h
  rcases h with h | ⟨h1, h2⟩
  · left
    omega
  · right
    omega

/-- Uniform head-unfolding of the decoder, independent of how much
lookahead is available. -/
theorem pyUtf8Decode_cons (m : DecMode) (b0 : Nat) (rest : List Nat) :
    pyUtf8Decode m (b0 :: rest) =
      if b0 < 0x80 then (pyUtf8Decode m rest).map (Char.ofNat b0 :: ·)
      else if b0 < 0xC2 then errCont m (pyUtf8Decode m rest)
      else if b0 < 0xE0 then
        match rest with
        | [] => errCont m (pyUtf8Decode m [])
        | b1 :: rest1 =>
          if contB b1 then (pyUtf8Decode m rest1).map (Char.ofNat (cp2 b0 b1) :: ·)
          else errCont m (pyUtf8Decode m (b1 :: rest1))
      else if b0 < 0xF0 then
        match rest with
        | [] => errCont m (pyUtf8Decode m [])
        | [b1] =>
          if sec3 b0 b1 then errCont m (pyUtf8Decode m [])
          else errCont m (pyUtf8Decode m [b1])
        | b1 :: b2 :: rest2 =>
          if sec3 b0 b1 then
            if contB b2 then (pyUtf8Decode m rest2).map (Char.ofNat (cp3 b0 b1 b2) :: ·)
            else errCont m (pyUtf8Decode m (b2 :: rest2))
          else errCont m (pyUtf8Decode m (b1 :: b2 :: rest2))
      else if b0 < 0xF5 then
        match rest with
        | [] => errCont m (pyUtf8Decode m [])
        | [b1] =>
          if sec4 b0 b1 then errCont m (pyUtf8Decode m [])
          else errCont m (pyUtf8Decode m [b1])
        | [b1, b2] =>
          if sec4 b0 b1 then
            if contB b2 then errCont m (pyUtf8Decode m [])
            else errCont m (pyUtf8Decode m [b2])
          else errCont m (pyUtf8Decode m [b1, b2])
        | b1 :: b2 :: b3 :: rest3 =>
          if sec4 b0 b1 then
            if contB b2 then
              if contB b3 then (pyUtf8Decode m rest3).map (Char.ofNat (cp4 b0 b1 b2 b3) :: ·)
              else errCont m (pyUtf8Decode m (b3 :: rest3))
            else errCont m (pyUtf8Decode m (b2 :: b3 :: rest3))
          else errCont m (pyUtf8Decode m (b1 :: b2 :: b3 :: rest3))
      else errCont m (pyUtf8Decode m rest) := by
  match rest with
  | [] => simp only [pyUtf8Decode]; all_goals (split_ifs <;> rfl)
  | [b1] => simp only [pyUtf8Decode]
  | [b1, b2] => simp only [pyUtf8Decode]
  | b1 :: b2 :: b3 :: r => simp only [pyUtf8Decode]

/-- Decoding an encoded character prepends that character, whatever
follows and whatever the error mode. -/
theorem pyUtf8Decode_encodeChar (m : DecMode) (c : Char) (bs : List Nat) :
    pyUtf8Decode m (utf8EncodeChar c.toNat ++ bs) = (pyUtf8Decode m bs).map (c :: ·) := by
  have hv := charValid c
  have hofn : Char.ofNat c.toNat = c := Char.ofNat_toNat c
  set v := c.toNat with hvdef
  by_cases h1 : v < 0x80
  · have he : utf8EncodeChar v = [v] := by simp [utf8EncodeChar, h1]
    rw [he, List.cons_append, List.nil_append, pyUtf8Decode_cons, if_pos h1, hofn]
  by_cases h2 : v < 0x800
  · have he : utf8EncodeChar v = [0xC0 + v / 64, 0x80 + v % 64] := by
      simp [utf8EncodeChar, h1, h2]
    rw [he]
    simp only [List.cons_append, List.nil_append]
    rw [pyUtf8Decode_cons]
    have c1 : ¬(0xC0 + v / 64 < 0x80) := by omega
    have c2 : ¬(0xC0 + v / 64 < 0xC2) := by omega
    have c3 : (0xC0 + v / 64 < 0xE0) := by omega
    rw [if_neg c1, if_neg c2, if_pos c3]
    have hcont : contB (0x80 + v % 64) = true := by
      unfold contB
      simp only [Bool.and_eq_true, decide_eq_true_eq]
      omega
    simp only [hcont, if_true]
    have hcp : cp2 (0xC0 + v / 64) (0x80 + v % 64) = v := by
      unfold cp2
      omega
    rw [hcp, hofn]
  by_cases h3 : v < 0x10000
  · have he : utf8EncodeChar v = [0xE0 + v / 4096, 0x80 + v / 64 % 64, 0x80 + v % 64] := by
      simp [utf8EncodeChar, h1, h2, h3]
    rw [he]
    simp only [List.cons_append, List.nil_append]
    rw [pyUtf8Decode_cons]
    have c1 : ¬(0xE0 + v / 4096 < 0x80) := by omega
    have c2 : ¬(0xE0 + v / 4096 < 0xC2) := by omega
    have c3 : ¬(0xE0 + v / 4096 < 0xE0) := by omega
    have c4 : (0xE0 + v / 4096 < 0xF0) := by omega
    rw [if_neg c1, if_neg c2, if_neg c3, if_pos c4]
    have hsec : sec3 (0xE0 + v / 4096) (0x80 + v / 64 % 64) = true := by
      unfold sec3 contB
      split_ifs with hx1 hx2 <;>
        simp only [Bool.and_eq_true, decide_eq_true_eq] <;>
        omega
    have hcont : contB (0x80 + v % 64) = true := by
      unfold contB
      simp only [Bool.and_eq_true, decide_eq_true_eq]
      omega
    simp only [hsec, hcont, if_true]
    have hcp : cp3 (0xE0 + v / 4096) (0x80 + v / 64 % 64) (0x80 + v % 64) = v := by
      unfold cp3
      omega
    rw [hcp, hofn]
  · have he : utf8EncodeChar v =
        [0xF0 + v / 262144, 0x80 + v / 4096 % 64, 0x80 + v / 64 % 64, 0x80 + v % 64] := by
      simp [utf8EncodeChar, h1, h2, h3]
    rw [he]
    simp only [List.cons_append, List.nil_append]
    rw [pyUtf8Decode_cons]
    have c1 : ¬(0xF0 + v / 262144 < 0x80) := by omega
    have c2 : ¬(0xF0 + v / 262144 < 0xC2) := by omega
    have c3 : ¬(0xF0 + v / 262144 < 0xE0) := by omega
    have c4 : ¬(0xF0 + v / 262144 < 0xF0) := by omega
    have c5 : (0xF0 + v / 262144 < 0xF5) := by omega
    rw [if_neg c1, if_neg c2, if_neg c3, if_neg c4, if_pos c5]
    have hsec : sec4 (0xF0 + v / 262144) (0x80 + v / 4096 % 64) = true := by
      unfold sec4 contB
      split_ifs with hx1 hx2 <;>
        simp only [Bool.and_eq_true, decide_eq_true_eq] <;>
        omega
    have hcont2 : contB (0x80 + v / 64 % 64) = true := by
      unfold contB
      simp only [Bool.and_eq_true, decide_eq_true_eq]
      omega
    have hcont3 : contB (0x80 + v % 64) = true := by
      unfold contB
      simp only [Bool.and_eq_true, decide_eq_true_eq]
      omega
    simp only [hsec, hcont2, hcont3, if_true]
    have hcp : cp4 (0xF0 + v / 262144) (0x80 + v / 4096 % 64) (0x80 + v / 64 % 64)
        (0x80 + v % 64) = v := by
      unfold cp4
      omega
    rw [hcp, hofn]

theorem pyUtf8Decode_encodeList (m : DecMode) (cs : List Char) (bs : List Nat) :
    pyUtf8Decode m (utf8EncodeList cs ++ bs) = (pyUtf8Decode m bs).map (cs ++ ·) := by
  induction cs with
  | nil =>
    simp only [utf8EncodeList, List.nil_append]
    cases pyUtf8Decode m bs <;> rfl
  | cons c cs ih =>
    simp only [utf8EncodeList, List.append_assoc]
    rw [pyUtf8Decode_encodeChar, ih]
    cases pyUtf8Decode m bs <;> rfl

/-- Decoding (in any error mode) inverts encoding. -/
theorem pyUtf8Decode_encode (m : DecMode) (s : String) :
    pyUtf8Decode m (utf8Encode s) = some s.data := by
  have h := pyUtf8Decode_encodeList m s.data []
  rw [List.append_nil] at h
  rw [utf8Encode, h]
  simp [pyUtf8Decode]

theorem isSome_map {α β : Type} (f : α → β) (o : Option α) : (o.map f).isSome = o.isSome := by
  cases o <;> rfl

theorem errCont_isSome {m : DecMode} (hm : m ≠ DecMode.strict) (k : Option (List Char)) :
    (errCont m k).isSome = k.isSome := by
  cases m with
  | strict => exact absurd rfl hm
  | ignore => rfl
  | replace => cases k <;> rfl

/-- The `errors='ignore'` and `errors='replace'` decodes never fail. -/
theorem pyUtf8Decode_isSome {m : DecMode} (hm : m ≠ DecMode.strict) (l : List Nat) :
    (pyUtf8Decode m l).isSome = true := by
  induction l using pyUtf8Decode.induct m with
  | _ =>
    first
    | rfl
    | (rw [pyUtf8Decode_cons]
       dsimp only
       split_ifs <;> simp [errCont_isSome hm, isSome_map, *])

theorem pyDecodeIgnore_eq (l : List Nat) :
    pyUtf8Decode .ignore l = some (pyDecodeIgnore l) := by
  have h := pyUtf8Decode_isSome (m := .ignore) (by intro h; cases h) l
  unfold pyDecodeIgnore
  cases he : pyUtf8Decode .ignore l with
  | none => rw [he] at h; cases h
  | some cs => rfl

theorem pyDecodeReplace_eq (l : List Nat) :
    pyUtf8Decode .replace l = some (pyDecodeReplace l) := by
  have h := pyUtf8Decode_isSome (m := .replace) (by intro h; cases h) l
  unfold pyDecodeReplace
  cases he : pyUtf8Decode .replace l with
  | none => rw [he] at h; cases h
  | some cs => rfl

/-- Decoding with `errors='ignore'` on bytes produced by the encoder reads back the
original string (no invalid subparts arise). -/
theorem pyDecodeIgnore_encode (s : String) : pyDecodeIgnore (utf8Encode s) = s.data := by
  have h := pyUtf8Decode_encode .ignore s
  rw [pyDecodeIgnore_eq] at h
  injection h

/-! ### Universal-newline lemmas -/

theorem univNl_no_cr (l : List Char) : '\r' ∉ univNl l := by
  induction l using univNl.induct with
  | case1 => intro h; simp [univNl] at h
  | case2 => intro h; exact absurd h (by decide)
  | case3 c hc =>
    intro h
    rw [univNl, if_neg hc] at h
    simp at h
    exact hc h.symm
  | case4 rest ih =>
    intro h
    simp [univNl] at h
    exact ih h
  | case5 d rest hd ih =>
    intro h
    simp [univNl, hd] at h
    exact ih h
  | case6 c d rest hc ih =>
    intro h
    rw [univNl, if_neg hc] at h
    rcases List.mem_cons.mp h with h1 | h1
    · exact hc h1.symm
    · exact ih h1

theorem univNl_of_no_cr (l : List Char) (h : '\r' ∉ l) : univNl l = l := by
  induction l using univNl.induct with
  | case1 => rfl
  | case2 => simp at h
  | case3 c hc => rw [univNl, if_neg hc]
  | case4 rest ih => simp at h
  | case5 d rest hd ih => simp at h
  | case6 c d rest hc ih =>
    rw [univNl, if_neg hc]
    have h2 : '\r' ∉ d :: rest := fun hm => h (List.mem_cons_of_mem c hm)
    rw [ih h2]

theorem univNl_idem (l : List Char) : univNl (univNl l) = univNl l :=
  univNl_of_no_cr _ (univNl_no_cr l)

/-! ### `splitlines` lemmas -/

theorem not_break_ne_cr {c : Char} (h : isLineBreak c = false) : c ≠ '\r' := by
  intro he
  subst he
  simp [isLineBreak] at h

/-- Is the last character present and a non-line-break?  (The condition
under which appending a final newline does not change `splitlines`.) -/
def lastNotBreak (l : List Char) : Bool :=
  match l.getLast? with
  | some c => !isLineBreak c
  | none => false

theorem pySplitlinesAux_append_nl (cur l : List Char) :
    lastNotBreak l = true → pySplitlinesAux cur (l ++ ['\n']) = pySplitlinesAux cur l := by
  induction cur, l using pySplitlinesAux.induct with
  | case1 cur hcur => intro h; simp [lastNotBreak] at h
  | case2 cur hcur => intro h; simp [lastNotBreak] at h
  | case3 cur c hc ih =>
    intro h
    simp [lastNotBreak, List.getLast?] at h
    simp [h] at hc
  | case4 cur c hc ih =>
    intro h
    have hb : isLineBreak c = false := by simpa using hc
    have hcr : c ≠ '\r' := not_break_ne_cr hb
    have hnl : isLineBreak '\n' = true := rfl
    simp [pySplitlinesAux, hcr, hb, hnl]
  | case5 cur c d rest hcd ih =>
    intro h
    have hd : d = '\n' := by
      simp only [Bool.and_eq_true, decide_eq_true_eq] at hcd
      exact hcd.2
    have hlast : lastNotBreak rest = true := by
      match rest with
      | [] =>
        exfalso
        simp [lastNotBreak, List.getLast?, hd, isLineBreak] at h
      | e :: r2 =>
        simp only [lastNotBreak] at h ⊢
        rw [List.getLast?_cons_cons, List.getLast?_cons_cons] at h
        exact h
    simp only [List.cons_append]
    rw [pySplitlinesAux, pySplitlinesAux, if_pos hcd, if_pos hcd]
    rw [ih hlast]
  | case6 cur c d rest hcd hc ih =>
    intro h
    have hlast : lastNotBreak (d :: rest) = true := by
      simp only [lastNotBreak] at h ⊢
      rw [List.getLast?_cons_cons] at h
      exact h
    simp only [List.cons_append]
    rw [pySplitlinesAux, pySplitlinesAux, if_neg hcd, if_neg hcd, if_pos hc, if_pos hc]
    rw [← List.cons_append, ih hlast]
  | case7 cur c d rest hcd hc ih =>
    intro h
    have hlast : lastNotBreak (d :: rest) = true := by
      simp only [lastNotBreak] at h ⊢
      rw [List.getLast?_cons_cons] at h
      exact h
    simp only [List.cons_append]
    rw [pySplitlinesAux, pySplitlinesAux, if_neg hcd, if_neg hcd, if_neg hc, if_neg hc]
    rw [← List.cons_append, ih hlast]

/-- Appending a final newline to a string that is nonempty and does not
already end in a line boundary leaves `splitlines` unchanged
(in particular `'a'` and `'a\n'` both have one line). -/
theorem pySplitlines_append_nl (s : String) (h : lastNotBreak s.data = true) :
    pySplitlines (s ++ "\n") = pySplitlines s := by
  unfold pySplitlines
  have hdata : (s ++ "\n").data = s.data ++ ['\n'] := by
    simp [String.data_append]
  rw [hdata, pySplitlinesAux_append_nl _ _ h]

/-! ### Path prefixes -/

/-- Predicate `pfx p q`: `p` is a (not necessarily proper) leading segment of `q`.
An operation at path `q` can only change `find` at paths `r` with
`pfx r q`. -/
def pfx : List String → List String → Bool
  | [], _ => true
  | _ :: _, [] => false
  | a :: as, b :: bs => (a == b) && pfx as bs

theorem pfx_iff (p q : List String) : pfx p q = true ↔ ∃ t, q = p ++ t := by
  induction p generalizing q with
  | nil => simp [pfx]
  | cons a as ih =>
    match q with
    | [] =>
      simp only [pfx, Bool.false_eq_true, false_iff]
      rintro ⟨t, ht⟩
      simp at ht
    | b :: bs =>
      simp only [pfx, Bool.and_eq_true, beq_iff_eq, ih]
      constructor
      · rintro ⟨hab, t, ht⟩
        exact ⟨t, by rw [hab, ht]; rfl⟩
      · rintro ⟨t, ht⟩
        simp only [List.cons_append, List.cons.injEq] at ht
        exact ⟨ht.1.symm, t, ht.2⟩

theorem pfx_refl (p : List String) : pfx p p = true :=
  (pfx_iff p p).mpr ⟨[], by simp⟩

theorem pfx_append (p q : List String) : pfx p (p ++ q) = true :=
  (pfx_iff p (p ++ q)).mpr ⟨q, rfl⟩

theorem pfx_nil_right {p : List String} (h : pfx p [] = true) : p = [] := by
  rcases (pfx_iff p []).mp h with ⟨t, ht⟩
  rcases List.append_eq_nil.mp ht.symm with ⟨h1, _⟩
  exact h1

theorem pfx_trans {a b c : List String} (h1 : pfx a b = true) (h2 : pfx b c = true) :
    pfx a c = true := by
  rcases (pfx_iff a b).mp h1 with ⟨t1, ht1⟩
  rcases (pfx_iff b c).mp h2 with ⟨t2, ht2⟩
  exact (pfx_iff a c).mpr ⟨t1 ++ t2, by rw [ht2, ht1, List.append_assoc]⟩

theorem pfx_cancel (p a b : List String) : pfx (p ++ a) (p ++ b) = pfx a b := by
  induction p with
  | nil => rfl
  | cons x xs ih => simp [pfx, ih]

theorem pfx_dropLast (q : List String) : pfx q.dropLast q = true := by
  refine (pfx_iff _ _).mpr ⟨q.drop (q.length - 1), ?_⟩
  rw [List.dropLast_eq_take]
  exact (List.take_append_drop _ q).symm

theorem pfx_snoc_head {p : List String} {n n' : String} {x y : List String}
    (h : pfx (p ++ [n] ++ x) (p ++ [n'] ++ y) = true) : n = n' := by
  rw [List.append_assoc, List.append_assoc, pfx_cancel] at h
  simp only [List.singleton_append, pfx, Bool.and_eq_true, beq_iff_eq] at h
  exact h.1

theorem not_pfx_of_head_ne {p : List String} {n n' : String} {x y : List String}
    (hne : n ≠ n') : pfx (p ++ [n] ++ x) (p ++ [n'] ++ y) = false := by
  cases he : pfx (p ++ [n] ++ x) (p ++ [n'] ++ y) with
  | false => rfl
  | true => exact absurd (pfx_snoc_head he) hne

/-! ### Child-list toolkit -/

/-- Structural induction over a child list (the `induction` tactic does
not directly handle the mutual inductive). -/
theorem FSEntries.ind {motive : FSEntries → Prop} (hnil : motive .nil)
    (hcons : ∀ (n : String) (e : FSEntry) (rest : FSEntries),
      motive rest → motive (.cons n e rest)) : ∀ xs, motive xs
  | .nil => hnil
  | .cons n e rest => hcons n e rest (FSEntries.ind hnil hcons rest)

def FSEntries.app : FSEntries → FSEntries → FSEntries
  | .nil, ys => ys
  | .cons n e rest, ys => .cons n e (rest.app ys)

theorem FSEntries.app_nil (xs : FSEntries) : xs.app .nil = xs := by
  induction xs using FSEntries.ind with
  | hnil => rfl
  | hcons n e rest ih => simp [FSEntries.app, ih]

theorem FSEntries.app_assoc (xs ys zs : FSEntries) :
    (xs.app ys).app zs = xs.app (ys.app zs) := by
  induction xs using FSEntries.ind with
  | hnil => rfl
  | hcons n e rest ih => simp [FSEntries.app, ih]

theorem FSEntries.names_app (xs ys : FSEntries) :
    (xs.app ys).names = xs.names ++ ys.names := by
  induction xs using FSEntries.ind with
  | hnil => rfl
  | hcons n e rest ih => simp [FSEntries.app, FSEntries.names, ih]

theorem FSEntries.lookupName_app_left {xs : FSEntries} {n : String} {e : FSEntry}
    (h : xs.lookupName n = some e) (ys : FSEntries) :
    (xs.app ys).lookupName n = some e := by
  induction xs using FSEntries.ind with
  | hnil => simp [FSEntries.lookupName] at h
  | hcons m x rest ih =>
    rw [FSEntries.lookupName] at h
    rw [FSEntries.app, FSEntries.lookupName]
    by_cases hm : m = n
    · rwa [if_pos hm] at h ⊢
    · rw [if_neg hm] at h ⊢
      exact ih h

theorem FSEntries.lookupName_app_right {xs : FSEntries} {n : String}
    (h : n ∉ xs.names) (ys : FSEntries) :
    (xs.app ys).lookupName n = ys.lookupName n := by
  induction xs using FSEntries.ind with
  | hnil => rfl
  | hcons m x rest ih =>
    rw [FSEntries.names] at h
    simp only [List.mem_cons, not_or] at h
    rw [FSEntries.app, FSEntries.lookupName, if_neg (fun he => h.1 he.symm)]
    exact ih h.2

theorem FSEntries.lookupName_none_of_not_mem {xs : FSEntries} {n : String}
    (h : n ∉ xs.names) : xs.lookupName n = none := by
  induction xs using FSEntries.ind with
  | hnil => rfl
  | hcons m x rest ih =>
    rw [FSEntries.names] at h
    simp only [List.mem_cons, not_or] at h
    rw [FSEntries.lookupName, if_neg (fun he => h.1 he.symm)]
    exact ih h.2

theorem FSEntries.lookupName_mem_of_some {xs : FSEntries} {n : String} {e : FSEntry}
    (h : xs.lookupName n = some e) : n ∈ xs.names := by
  induction xs using FSEntries.ind with
  | hnil => simp [FSEntries.lookupName] at h
  | hcons m x rest ih =>
    rw [FSEntries.lookupName] at h
    rw [FSEntries.names]
    by_cases hm : m = n
    · simp [hm]
    · rw [if_neg hm] at h
      exact List.mem_cons_of_mem _ (ih h)

theorem FSEntries.setName_fresh {xs : FSEntries} {n : String} (h : n ∉ xs.names)
    (x : FSEntry) : xs.setName n x = xs.app (.cons n x .nil) := by
  induction xs using FSEntries.ind with
  | hnil => rfl
  | hcons m e rest ih =>
    rw [FSEntries.names] at h
    simp only [List.mem_cons, not_or] at h
    rw [FSEntries.setName, if_neg (fun he => h.1 he.symm), FSEntries.app]
    rw [ih h.2]

theorem FSEntries.lookupName_setName_self (xs : FSEntries) (n : String) (x : FSEntry) :
    (xs.setName n x).lookupName n = some x := by
  induction xs using FSEntries.ind with
  | hnil => simp [FSEntries.setName, FSEntries.lookupName]
  | hcons m e rest ih =>
    rw [FSEntries.setName]
    by_cases hm : m = n
    · rw [if_pos hm, FSEntries.lookupName, if_pos hm]
    · rw [if_neg hm, FSEntries.lookupName, if_neg hm]
      exact ih

theorem FSEntries.lookupName_setName_other (xs : FSEntries) {n m : String}
    (h : n ≠ m) (x : FSEntry) : (xs.setName n x).lookupName m = xs.lookupName m := by
  induction xs using FSEntries.ind with
  | hnil =>
    simp only [FSEntries.setName, FSEntries.lookupName]
    rw [if_neg h]
  | hcons k e rest ih =>
    rw [FSEntries.setName]
    by_cases hk : k = n
    · rw [if_pos hk, FSEntries.lookupName, FSEntries.lookupName, hk]
      rw [if_neg h, if_neg h]
    · rw [if_neg hk, FSEntries.lookupName, FSEntries.lookupName]
      by_cases hkm : k = m
      · rw [if_pos hkm, if_pos hkm]
      · rw [if_neg hkm, if_neg hkm]
        exact ih

theorem FSEntries.names_setName_of_some {xs : FSEntries} {n : String} {e : FSEntry}
    (h : xs.lookupName n = some e) (x : FSEntry) : (xs.setName n x).names = xs.names := by
  induction xs using FSEntries.ind with
  | hnil => simp [FSEntries.lookupName] at h
  | hcons m y rest ih =>
    rw [FSEntries.lookupName] at h
    rw [FSEntries.setName]
    by_cases hm : m = n
    · rw [if_pos hm, FSEntries.names, FSEntries.names]
    · rw [if_neg hm] at h ⊢
      rw [FSEntries.names, FSEntries.names, ih h]

theorem FSEntries.setName_setName (es : FSEntries) (n : String) (a b : FSEntry) :
    (es.setName n a).setName n b = es.setName n b := by
  induction es using FSEntries.ind with
  | hnil => simp [FSEntries.setName]
  | hcons m e rest ih =>
    rw [FSEntries.setName]
    by_cases hm : m = n
    · rw [if_pos hm, FSEntries.setName, if_pos hm, FSEntries.setName, if_pos hm]
    · rw [if_neg hm, FSEntries.setName, if_neg hm, FSEntries.setName, if_neg hm, ih]

theorem FSEntries.setName_self {es : FSEntries} {n : String} {e : FSEntry}
    (h : es.lookupName n = some e) : es.setName n e = es := by
  induction es using FSEntries.ind with
  | hnil => simp [FSEntries.lookupName] at h
  | hcons m x rest ih =>
    rw [FSEntries.lookupName] at h
    rw [FSEntries.setName]
    by_cases hm : m = n
    · rw [if_pos hm] at h ⊢
      injection h with h
      rw [h]
    · rw [if_neg hm] at h ⊢
      rw [ih h]

/-! ### `find` lemmas -/

theorem FSEntry.find_nil (e : FSEntry) : e.find [] = some e := by
  cases e <;> rfl

theorem FSEntry.setAt_nil (e x : FSEntry) : e.setAt [] x = x := by
  cases e <;> rfl

theorem FSEntry.find_append (e : FSEntry) (p q : List String) :
    e.find (p ++ q) = (e.find p).bind (fun x => x.find q) := by
  induction p generalizing e with
  | nil => rw [List.nil_append, FSEntry.find_nil]; rfl
  | cons n rest ih =>
    cases e with
    | file b => rfl
    | dir es =>
      simp only [List.cons_append, FSEntry.find]
      cases hl : es.lookupName n with
      | some x => exact ih x
      | none => rfl

theorem FSEntry.find_dir_single (es : FSEntries) (n : String) :
    (FSEntry.dir es).find [n] = es.lookupName n := by
  rw [FSEntry.find]
  cases hl : es.lookupName n with
  | none => rfl
  | some x => cases x <;> rfl

/-- Along a resolvable path every strict prefix resolves to a directory. -/
theorem FSEntry.find_parents {e : FSEntry} {q : List String} {x : FSEntry}
    (h : e.find q = some x) {r : List String} (hr : pfx r q = true) (hne : r ≠ q) :
    ∃ es, e.find r = some (.dir es) := by
  rcases (pfx_iff r q).mp hr with ⟨t, ht⟩
  subst ht
  rw [FSEntry.find_append] at h
  cases hf : e.find r with
  | none => rw [hf] at h; cases h
  | some y =>
    rw [hf] at h
    cases y with
    | dir es => exact ⟨es, rfl⟩
    | file b =>
      exfalso
      match t with
      | [] => exact hne (by simp)
      | s :: t' => simp [FSEntry.find] at h

theorem FSEntry.find_dropLast_isSome {e : FSEntry} {q : List String} {x : FSEntry}
    (h : e.find q = some x) : (e.find q.dropLast).isSome = true := by
  cases q with
  | nil => rw [List.dropLast_nil, FSEntry.find_nil]; rfl
  | cons n rest =>
    by_cases hd : (n :: rest).dropLast = n :: rest
    · rw [hd, h]; rfl
    · rcases FSEntry.find_parents h (pfx_dropLast (n :: rest)) hd with ⟨es, hes⟩
      rw [hes]; rfl

/-! ### `setAt` lemmas -/

theorem FSEntry.find_setAt_append {e : FSEntry} {p : List String}
    (h : (e.find p).isSome = true) (x : FSEntry) (q : List String) :
    (e.setAt p x).find (p ++ q) = x.find q := by
  induction p generalizing e with
  | nil =>
    rw [FSEntry.setAt_nil]
    rfl
  | cons n rest ih =>
    cases e with
    | file b => simp [FSEntry.find] at h
    | dir es =>
      rw [FSEntry.find] at h
      cases hl : es.lookupName n with
      | none => rw [hl] at h; simp at h
      | some e' =>
        rw [hl] at h
        simp only [FSEntry.setAt, hl, List.cons_append, FSEntry.find,
          FSEntries.lookupName_setName_self]
        exact ih h

theorem FSEntry.find_setAt_self {e : FSEntry} {p : List String}
    (h : (e.find p).isSome = true) (x : FSEntry) :
    (e.setAt p x).find p = some x := by
  have h2 := FSEntry.find_setAt_append h x []
  rw [List.append_nil] at h2
  rw [h2, FSEntry.find_nil]

theorem FSEntry.find_setAt_frame {e : FSEntry} {p r : List String} (x : FSEntry)
    (h1 : pfx p r = false) (h2 : pfx r p = false) :
    (e.setAt p x).find r = e.find r := by
  induction p generalizing e r with
  | nil => simp [pfx] at h1
  | cons n rest ih =>
    cases e with
    | file b => rfl
    | dir es =>
      rw [FSEntry.setAt]
      cases hl : es.lookupName n with
      | none => rfl
      | some e' =>
        match r with
        | [] => simp [pfx] at h2
        | m :: r' =>
          by_cases hm : n = m
          · subst hm
            simp only [pfx, beq_self_eq_true, Bool.true_and] at h1 h2
            rw [FSEntry.find, FSEntry.find, FSEntries.lookupName_setName_self, hl]
            exact ih h1 h2
          · rw [FSEntry.find, FSEntry.find,
              FSEntries.lookupName_setName_other es hm]

theorem FSEntry.setAt_setAt (e : FSEntry) (p : List String) (x y : FSEntry) :
    (e.setAt p x).setAt p y = e.setAt p y := by
  induction p generalizing e with
  | nil => simp [FSEntry.setAt_nil]
  | cons n rest ih =>
    cases e with
    | file b => rfl
    | dir es =>
      cases hl : es.lookupName n with
      | none => simp only [FSEntry.setAt, hl]
      | some e' =>
        simp only [FSEntry.setAt, hl, FSEntries.lookupName_setName_self,
          FSEntries.setName_setName, ih]

theorem FSEntry.setAt_of_find {e : FSEntry} {p : List String} {x : FSEntry}
    (h : e.find p = some x) : e.setAt p x = e := by
  induction p generalizing e with
  | nil =>
    rw [FSEntry.find_nil] at h
    injection h with h
    rw [FSEntry.setAt_nil]
    exact h.symm
  | cons n rest ih =>
    cases e with
    | file b => rfl
    | dir es =>
      cases hl : es.lookupName n with
      | none => simp only [FSEntry.setAt, hl]
      | some e' =>
        simp only [FSEntry.find, hl] at h
        simp only [FSEntry.setAt, hl]
        rw [ih h, FSEntries.setName_self hl]

theorem FSEntry.setAt_setAt_append {e : FSEntry} {p : List String} {c : FSEntry}
    (h : (e.find p).isSome = true) (d : List String) (z : FSEntry) :
    (e.setAt p c).setAt (p ++ d) z = e.setAt p (c.setAt d z) := by
  induction p generalizing e with
  | nil =>
    rw [FSEntry.setAt_nil, FSEntry.setAt_nil]
    rfl
  | cons n rest ih =>
    cases e with
    | file b => rfl
    | dir es =>
      cases hl : es.lookupName n with
      | none =>
        rw [FSEntry.find] at h
        rw [hl] at h
        simp at h
      | some e' =>
        simp only [FSEntry.find, hl] at h
        simp only [FSEntry.setAt, hl, List.cons_append, FSEntries.lookupName_setName_self,
          FSEntries.setName_setName]
        rw [ih h]

/-! ### `makedirs` and `writeFile` lemmas -/

theorem FSEntries.lookupName_isSome_of_mem {xs : FSEntries} {n : String}
    (h : n ∈ xs.names) : (xs.lookupName n).isSome = true := by
  induction xs using FSEntries.ind with
  | hnil => simp [FSEntries.names] at h
  | hcons m e rest ih =>
    rw [FSEntries.names] at h
    rw [FSEntries.lookupName]
    by_cases hm : m = n
    · rw [if_pos hm]; rfl
    · rw [if_neg hm]
      rcases List.mem_cons.mp h with h1 | h1
      · exact absurd h1.symm hm
      · exact ih h1

theorem FSEntries.not_mem_of_lookupName_none {xs : FSEntries} {n : String}
    (h : xs.lookupName n = none) : n ∉ xs.names := by
  intro hm
  have := FSEntries.lookupName_isSome_of_mem hm
  rw [h] at this
  cases this

theorem FSEntries.setName_app_right {xs : FSEntries} {n : String} (h : n ∉ xs.names)
    (ys : FSEntries) (z : FSEntry) : (xs.app ys).setName n z = xs.app (ys.setName n z) := by
  induction xs using FSEntries.ind with
  | hnil => rfl
  | hcons m e rest ih =>
    rw [FSEntries.names] at h
    simp only [List.mem_cons, not_or] at h
    rw [FSEntries.app, FSEntries.setName, if_neg (fun he => h.1 he.symm), FSEntries.app, ih h.2]

theorem FSEntry.makedirs_nil (e : FSEntry) : e.makedirs [] = some e := by
  cases e <;> rfl

/-- A chain of nested singleton directories ending in the child list `X`:
`chainEntries [n₁, …, nₖ] X` is `n₁/n₂/…/nₖ` with `X` the children of the
innermost directory. -/
def chainEntries : List String → FSEntries → FSEntries
  | [], xs => xs
  | n :: d, xs => .cons n (.dir (chainEntries d xs)) .nil

theorem chainEntries_append (d1 d2 : List String) (xs : FSEntries) :
    chainEntries (d1 ++ d2) xs = chainEntries d1 (chainEntries d2 xs) := by
  induction d1 with
  | nil => rfl
  | cons n d ih => simp [chainEntries, ih]

theorem FSEntry.makedirs_nil_dir (d : List String) :
    (FSEntry.dir .nil).makedirs d = some (.dir (chainEntries d .nil)) := by
  induction d with
  | nil => rfl
  | cons n rest ih =>
    rw [FSEntry.makedirs]
    have hl : FSEntries.nil.lookupName n = none := rfl
    rw [hl]
    simp only [ih, Option.map_some']
    rfl

theorem FSEntry.makedirs_fresh {es : FSEntries} {n : String}
    (h : es.lookupName n = none) (d : List String) :
    (FSEntry.dir es).makedirs (n :: d) =
      some (.dir (es.app (chainEntries (n :: d) .nil))) := by
  rw [FSEntry.makedirs, h, FSEntry.makedirs_nil_dir]
  simp only [Option.map_some']
  rw [FSEntries.setName_fresh (FSEntries.not_mem_of_lookupName_none h)]
  rfl

theorem FSEntry.makedirs_of_find_dir {e : FSEntry} {d : List String} {es' : FSEntries}
    (h : e.find d = some (.dir es')) : e.makedirs d = some e := by
  induction d generalizing e with
  | nil =>
    rw [FSEntry.find_nil] at h
    exact FSEntry.makedirs_nil e
  | cons n rest ih =>
    cases e with
    | file b => simp [FSEntry.find] at h
    | dir es =>
      rw [FSEntry.find] at h
      cases hl : es.lookupName n with
      | none => rw [hl] at h; cases h
      | some e0 =>
        rw [hl] at h
        simp only at h
        simp only [FSEntry.makedirs, hl, ih h, Option.map_some']
        rw [FSEntries.setName_self hl]

/-- Paths that do not lead into the target of `makedirs` are untouched. -/
theorem FSEntry.makedirs_frame {e e' : FSEntry} {d : List String}
    (h : e.makedirs d = some e') {r : List String} (hr : pfx r d = false) :
    e'.find r = e.find r := by
  induction d generalizing e e' r with
  | nil =>
    rw [FSEntry.makedirs_nil] at h
    injection h with h
    rw [h]
  | cons n rest ih =>
    cases e with
    | file b => simp [FSEntry.makedirs] at h
    | dir es =>
      cases hl : es.lookupName n with
      | some e0 =>
        simp only [FSEntry.makedirs, hl] at h
        cases hm : e0.makedirs rest with
        | none => rw [hm] at h; cases h
        | some e1 =>
          rw [hm] at h
          simp only [Option.map_some'] at h
          injection h with h
          subst h
          match r with
          | [] => simp [pfx] at hr
          | m :: r' =>
            by_cases hnm : n = m
            · subst hnm
              simp only [pfx, beq_self_eq_true, Bool.true_and] at hr
              rw [FSEntry.find, FSEntry.find, FSEntries.lookupName_setName_self, hl]
              exact ih hm hr
            · rw [FSEntry.find, FSEntry.find, FSEntries.lookupName_setName_other es hnm]
      | none =>
        simp only [FSEntry.makedirs, hl] at h
        cases hm : (FSEntry.dir .nil).makedirs rest with
        | none => rw [hm] at h; cases h
        | some e1 =>
          rw [hm] at h
          simp only [Option.map_some'] at h
          injection h with h
          subst h
          match r with
          | [] => simp [pfx] at hr
          | m :: r' =>
            by_cases hnm : n = m
            · subst hnm
              simp only [pfx, beq_self_eq_true, Bool.true_and] at hr
              rw [FSEntry.find, FSEntry.find, FSEntries.lookupName_setName_self, hl]
              show e1.find r' = none
              rw [ih hm hr]
              match r' with
              | [] => simp [pfx] at hr
              | s :: r'' => rfl
            · rw [FSEntry.find, FSEntry.find, FSEntries.lookupName_setName_other es hnm]

theorem FSEntry.makedirs_mono_dir {e e' : FSEntry} {d : List String}
    (h : e.makedirs d = some e') {r : List String} {es0 : FSEntries}
    (hf : e.find r = some (.dir es0)) : ∃ es1, e'.find r = some (.dir es1) := by
  induction d generalizing e e' r with
  | nil =>
    rw [FSEntry.makedirs_nil] at h
    injection h with h
    subst h
    exact ⟨es0, hf⟩
  | cons n rest ih =>
    cases e with
    | file b => simp [FSEntry.makedirs] at h
    | dir es =>
      cases hl : es.lookupName n with
      | some e0 =>
        simp only [FSEntry.makedirs, hl] at h
        cases hm : e0.makedirs rest with
        | none => rw [hm] at h; cases h
        | some e1 =>
          rw [hm] at h
          simp only [Option.map_some'] at h
          injection h with h
          subst h
          match r with
          | [] => exact ⟨_, by rw [FSEntry.find_nil]⟩
          | m :: r' =>
            by_cases hnm : n = m
            · subst hnm
              simp only [FSEntry.find, hl] at hf
              rw [FSEntry.find, FSEntries.lookupName_setName_self]
              exact ih hm hf
            · rw [FSEntry.find, FSEntries.lookupName_setName_other es hnm]
              rw [FSEntry.find] at hf
              exact ⟨es0, hf⟩
      | none =>
        simp only [FSEntry.makedirs, hl] at h
        cases hm : (FSEntry.dir .nil).makedirs rest with
        | none => rw [hm] at h; cases h
        | some e1 =>
          rw [hm] at h
          simp only [Option.map_some'] at h
          injection h with h
          subst h
          match r with
          | [] => exact ⟨_, by rw [FSEntry.find_nil]⟩
          | m :: r' =>
            by_cases hnm : n = m
            · subst hnm
              simp [FSEntry.find, hl] at hf
            · rw [FSEntry.find, FSEntries.lookupName_setName_other es hnm]
              rw [FSEntry.find] at hf
              exact ⟨es0, hf⟩

theorem FSEntry.makedirs_loc {e : FSEntry} {p : List String} {sub : FSEntry}
    (h : e.find p = some sub) (q : List String) :
    e.makedirs (p ++ q) = (sub.makedirs q).map (fun s' => e.setAt p s') := by
  induction p generalizing e with
  | nil =>
    rw [FSEntry.find_nil] at h
    injection h with h
    subst h
    rw [List.nil_append]
    cases hm : e.makedirs q with
    | none => rfl
    | some x => simp [FSEntry.setAt_nil]
  | cons n rest ih =>
    cases e with
    | file b => simp [FSEntry.find] at h
    | dir es =>
      cases hl : es.lookupName n with
      | none => simp [FSEntry.find, hl] at h
      | some e0 =>
        simp only [FSEntry.find, hl] at h
        rw [List.cons_append]
        simp only [FSEntry.makedirs, hl]
        rw [ih h]
        cases hq : sub.makedirs q with
        | none => rfl
        | some x => simp [FSEntry.setAt, hl]

theorem FSEntry.writeFile_cons₂ {t : List String} (hne : t ≠ []) (es : FSEntries)
    (n : String) (b : List Nat) :
    (FSEntry.dir es).writeFile (n :: t) b =
      (match es.lookupName n with
       | some e => (e.writeFile t b).map (fun e' => FSEntry.dir (es.setName n e'))
       | none => none) := by
  match t with
  | [] => exact absurd rfl hne
  | m :: rest => rfl

theorem FSEntry.writeFile_single (es : FSEntries) (n : String) (b : List Nat) :
    (FSEntry.dir es).writeFile [n] b =
      (match es.lookupName n with
       | some (.dir _) => none
       | _ => some (.dir (es.setName n (.file b)))) := rfl

theorem FSEntry.writeFile_find {e e' : FSEntry} {q : List String} {b : List Nat}
    (h : e.writeFile q b = some e') : e'.find q = some (.file b) := by
  induction q generalizing e e' with
  | nil => cases e <;> simp [FSEntry.writeFile] at h
  | cons n t ih =>
    cases e with
    | file c => simp [FSEntry.writeFile] at h
    | dir es =>
      match t with
      | [] =>
        rw [FSEntry.writeFile_single] at h
        cases hl : es.lookupName n with
        | none =>
          rw [hl] at h
          simp only [Option.some.injEq] at h
          subst h
          rw [FSEntry.find_dir_single, FSEntries.lookupName_setName_self]
        | some x =>
          rw [hl] at h
          cases x with
          | dir es2 => simp at h
          | file c =>
            simp only [Option.some.injEq] at h
            subst h
            rw [FSEntry.find_dir_single, FSEntries.lookupName_setName_self]
      | m :: rest =>
        rw [FSEntry.writeFile_cons₂ (by simp) es n b] at h
        cases hl : es.lookupName n with
        | none => rw [hl] at h; cases h
        | some e0 =>
          rw [hl] at h
          simp only at h
          cases hw : e0.writeFile (m :: rest) b with
          | none => rw [hw] at h; cases h
          | some e1 =>
            rw [hw] at h
            simp only [Option.map_some', Option.some.injEq] at h
            subst h
            rw [FSEntry.find, FSEntries.lookupName_setName_self]
            exact ih hw

theorem FSEntry.writeFile_frame {e e' : FSEntry} {q : List String} {b : List Nat}
    (h : e.writeFile q b = some e') {r : List String} (hr : pfx r q = false) :
    e'.find r = e.find r := by
  induction q generalizing e e' r with
  | nil => cases e <;> simp [FSEntry.writeFile] at h
  | cons n t ih =>
    cases e with
    | file c => simp [FSEntry.writeFile] at h
    | dir es =>
      match t with
      | [] =>
        rw [FSEntry.writeFile_single] at h
        match r with
        | [] => simp [pfx] at hr
        | m :: r' =>
          by_cases hnm : n = m
          · subst hnm
            simp only [pfx, beq_self_eq_true, Bool.true_and] at hr
            have hr' : r' ≠ [] := by
              intro he
              subst he
              simp [pfx] at hr
            cases hl : es.lookupName n with
            | none =>
              rw [hl] at h
              simp only [Option.some.injEq] at h
              subst h
              rw [FSEntry.find, FSEntries.lookupName_setName_self, FSEntry.find, hl]
              match r', hr' with
              | s :: r'', _ => rfl
            | some x =>
              rw [hl] at h
              cases x with
              | dir es2 => simp at h
              | file c =>
                simp only [Option.some.injEq] at h
                subst h
                rw [FSEntry.find, FSEntries.lookupName_setName_self, FSEntry.find, hl]
                match r', hr' with
                | s :: r'', _ => rfl
          · cases hl : es.lookupName n with
            | none =>
              rw [hl] at h
              simp only [Option.some.injEq] at h
              subst h
              rw [FSEntry.find, FSEntries.lookupName_setName_other es hnm, FSEntry.find]
            | some x =>
              rw [hl] at h
              cases x with
              | dir es2 => simp at h
              | file c =>
                simp only [Option.some.injEq] at h
                subst h
                rw [FSEntry.find, FSEntries.lookupName_setName_other es hnm, FSEntry.find]
      | m2 :: rest =>
        rw [FSEntry.writeFile_cons₂ (by simp) es n b] at h
        cases hl : es.lookupName n with
        | none => rw [hl] at h; cases h
        | some e0 =>
          rw [hl] at h
          simp only at h
          cases hw : e0.writeFile (m2 :: rest) b with
          | none => rw [hw] at h; cases h
          | some e1 =>
            rw [hw] at h
            simp only [Option.map_some', Option.some.injEq] at h
            subst h
            match r with
            | [] => simp [pfx] at hr
            | s :: r' =>
              by_cases hns : n = s
              · subst hns
                simp only [pfx, beq_self_eq_true, Bool.true_and] at hr
                rw [FSEntry.find, FSEntries.lookupName_setName_self, FSEntry.find, hl]
                exact ih hw hr
              · rw [FSEntry.find, FSEntries.lookupName_setName_other es hns, FSEntry.find]

theorem FSEntry.writeFile_dir_none {e : FSEntry} {q : List String} {es0 : FSEntries}
    (hf : e.find q = some (.dir es0)) (b : List Nat) : e.writeFile q b = none := by
  induction q generalizing e with
  | nil => cases e <;> rfl
  | cons n t ih =>
    cases e with
    | file c => rfl
    | dir es =>
      match t with
      | [] =>
        rw [FSEntry.writeFile_single]
        rw [FSEntry.find_dir_single] at hf
        rw [hf]
      | m :: rest =>
        rw [FSEntry.writeFile_cons₂ (by simp) es n b]
        cases hl : es.lookupName n with
        | none => rfl
        | some e0 =>
          simp only [FSEntry.find, hl] at hf
          simp only [ih hf, Option.map_none']

theorem FSEntry.writeFile_mono_dir {e e' : FSEntry} {q : List String} {b : List Nat}
    (h : e.writeFile q b = some e') {r : List String} {es0 : FSEntries}
    (hf : e.find r = some (.dir es0)) : ∃ es1, e'.find r = some (.dir es1) := by
  cases hp : pfx r q with
  | false => exact ⟨es0, by rw [FSEntry.writeFile_frame h hp, hf]⟩
  | true =>
    by_cases heq : r = q
    · subst heq
      rw [FSEntry.writeFile_dir_none hf b] at h
      cases h
    · exact FSEntry.find_parents (FSEntry.writeFile_find h) hp heq

theorem FSEntry.writeFile_loc {e : FSEntry} {p : List String} {sub : FSEntry}
    (h : e.find p = some sub) {q : List String} (hq : q ≠ []) (b : List Nat) :
    e.writeFile (p ++ q) b = (sub.writeFile q b).map (fun s' => e.setAt p s') := by
  induction p generalizing e with
  | nil =>
    rw [FSEntry.find_nil] at h
    injection h with h
    subst h
    rw [List.nil_append]
    cases hm : e.writeFile q b with
    | none => rfl
    | some x => simp [FSEntry.setAt_nil]
  | cons n rest ih =>
    cases e with
    | file b2 => simp [FSEntry.find] at h
    | dir es =>
      cases hl : es.lookupName n with
      | none => simp [FSEntry.find, hl] at h
      | some e0 =>
        simp only [FSEntry.find, hl] at h
        have hne : rest ++ q ≠ [] := by
          intro he
          rcases List.append_eq_nil.mp he with ⟨_, h2⟩
          exact hq h2
        rw [List.cons_append, FSEntry.writeFile_cons₂ hne es n b, hl]
        simp only
        rw [ih h]
        cases hw : sub.writeFile q b with
        | none => rfl
        | some x => simp [FSEntry.setAt, hl]

/-! ### `update_or_create_file` lemmas -/

/-- The text Python would read from `q` (strict UTF-8 + universal
newlines), when `q` is a readable file. -/
def FSEntry.readText (e : FSEntry) (q : List String) : Option String :=
  match e.find q with
  | some (.file b) =>
    match pyUtf8Decode .strict b with
    | none => none
    | some cs => some (String.mk (univNl cs))
  | _ => none

/-- When the parent exists and the on-disk text equals the new content,
`update_or_create_file` does nothing and logs nothing. -/
theorem update_skip {fs : FSEntry} {q : List String} {s : String}
    (hd : (fs.find q.dropLast).isSome = true) (hr : fs.readText q = some s) :
    update_or_create_file fs q s = .ok (fs, []) := by
  unfold FSEntry.readText at hr
  cases hf : fs.find q with
  | none => rw [hf] at hr; cases hr
  | some x =>
    rw [hf] at hr
    cases x with
    | dir es => simp at hr
    | file b =>
      simp only at hr
      cases hdec : pyUtf8Decode .strict b with
      | none => rw [hdec] at hr; cases hr
      | some cs =>
        rw [hdec] at hr
        simp only [Option.some.injEq] at hr
        unfold update_or_create_file
        simp only [hd, if_true, hf, hdec]
        rw [if_neg (fun hne => hne hr)]

/-- An `ok` run with no events did nothing: the parent existed and the
on-disk text already equalled the content. -/
theorem update_noop_inv {fs fs' : FSEntry} {q : List String} {s : String}
    (h : update_or_create_file fs q s = .ok (fs', [])) :
    fs' = fs ∧ (fs.find q.dropLast).isSome = true ∧ fs.readText q = some s := by
  unfold update_or_create_file at h
  by_cases hd : (fs.find q.dropLast).isSome = true
  · simp only [hd, if_true] at h
    cases hf : fs.find q with
    | none =>
      rw [hf] at h
      simp only at h
      cases hw : fs.writeFile q (utf8Encode s) with
      | none => rw [hw] at h; cases h
      | some fs2 => rw [hw] at h; simp at h
    | some x =>
      rw [hf] at h
      cases x with
      | dir es => simp only at h; cases h
      | file b =>
        simp only at h
        cases hdec : pyUtf8Decode .strict b with
        | none => rw [hdec] at h; cases h
        | some cs =>
          rw [hdec] at h
          simp only at h
          by_cases hne : String.mk (univNl cs) ≠ s
          · rw [if_pos hne] at h
            cases hw : fs.writeFile q (utf8Encode (s)) with
            | none => rw [hw] at h; cases h
            | some fs2 => rw [hw] at h; simp at h
          · rw [if_neg hne] at h
            injection h with h
            injection h with h1 h2
            push_neg at hne
            refine ⟨h1.symm, hd, ?_⟩
            simp only [FSEntry.readText, hf, hdec]
            simp [hne]
  · simp only [hd, Bool.false_eq_true, if_false] at h
    cases hm : fs.makedirs q.dropLast with
    | none => rw [hm] at h; cases h
    | some fs1 =>
      rw [hm] at h
      simp only at h
      cases hf : fs1.find q with
      | none =>
        rw [hf] at h
        simp only at h
        cases hw : fs1.writeFile q (utf8Encode s) with
        | none => rw [hw] at h; cases h
        | some fs2 => rw [hw] at h; simp at h
      | some x =>
        rw [hf] at h
        cases x with
        | dir es => simp only at h; cases h
        | file b =>
          simp only at h
          cases hdec : pyUtf8Decode .strict b with
          | none => rw [hdec] at h; cases h
          | some cs =>
            rw [hdec] at h
            simp only at h
            by_cases hne : String.mk (univNl cs) ≠ s
            · rw [if_pos hne] at h
              cases hw : fs1.writeFile q (utf8Encode (s)) with
              | none => rw [hw] at h; cases h
              | some fs2 => rw [hw] at h; simp at h
            · rw [if_neg hne] at h
              simp at h

/-- Exhaustive characterisation of a successful `update_or_create_file`:
step 1 either found the parent or created it with `os.makedirs`; then the
file was either identical (skip), different (overwrite), or absent
(create). -/
theorem update_cases {fs fs' : FSEntry} {q : List String} {s : String} {evs : List Event}
    (h : update_or_create_file fs q s = .ok (fs', evs)) :
    ∃ fs1 evs1,
      ((fs1 = fs ∧ evs1 = [] ∧ (fs.find q.dropLast).isSome = true) ∨
        ((fs.find q.dropLast).isSome = false ∧ fs.makedirs q.dropLast = some fs1 ∧
          evs1 = [Event.createdDir])) ∧
      ((∃ b cs, fs1.find q = some (.file b) ∧ pyUtf8Decode .strict b = some cs ∧
          ((String.mk (univNl cs) = s ∧ fs' = fs1 ∧ evs = evs1) ∨
            (String.mk (univNl cs) ≠ s ∧ fs1.writeFile q (utf8Encode s) = some fs' ∧
              evs = evs1 ++ [Event.updated (pySplitlines (String.mk (univNl cs))).length
                (pySplitlines s).length]))) ∨
        (fs1.find q = none ∧ fs1.writeFile q (utf8Encode s) = some fs' ∧
          evs = evs1 ++ [Event.created])) := by
  unfold update_or_create_file at h
  by_cases hd : (fs.find q.dropLast).isSome = true
  · simp only [hd, if_true] at h
    refine ⟨fs, [], Or.inl ⟨rfl, rfl, hd⟩, ?_⟩
    cases hf : fs.find q with
    | none =>
      rw [hf] at h
      simp only at h
      cases hw : fs.writeFile q (utf8Encode s) with
      | none => rw [hw] at h; cases h
      | some fs2 =>
        rw [hw] at h
        simp only [Except.ok.injEq, Prod.mk.injEq] at h
        exact Or.inr ⟨rfl, congrArg some h.1, h.2.symm⟩
    | some x =>
      rw [hf] at h
      cases x with
      | dir es => simp only at h; cases h
      | file b =>
        simp only at h
        cases hdec : pyUtf8Decode .strict b with
        | none => rw [hdec] at h; cases h
        | some cs =>
          rw [hdec] at h
          simp only at h
          refine Or.inl ⟨b, cs, rfl, hdec, ?_⟩
          by_cases hne : String.mk (univNl cs) ≠ s
          · rw [if_pos hne] at h
            cases hw : fs.writeFile q (utf8Encode s) with
            | none => rw [hw] at h; cases h
            | some fs2 =>
              rw [hw] at h
              simp only [Except.ok.injEq, Prod.mk.injEq] at h
              exact Or.inr ⟨hne, congrArg some h.1, h.2.symm⟩
          · rw [if_neg hne] at h
            simp only [Except.ok.injEq, Prod.mk.injEq] at h
            push_neg at hne
            exact Or.inl ⟨hne, h.1.symm, h.2.symm⟩
  · simp only [hd, Bool.false_eq_true, if_false] at h
    have hd2 : (fs.find q.dropLast).isSome = false := by
      cases hx : (fs.find q.dropLast).isSome
      · rfl
      · exact absurd hx hd
    cases hm : fs.makedirs q.dropLast with
    | none => rw [hm] at h; cases h
    | some fs1 =>
      rw [hm] at h
      simp only at h
      refine ⟨fs1, [Event.createdDir], Or.inr ⟨hd2, rfl, rfl⟩, ?_⟩
      cases hf : fs1.find q with
      | none =>
        rw [hf] at h
        simp only at h
        cases hw : fs1.writeFile q (utf8Encode s) with
        | none => rw [hw] at h; cases h
        | some fs2 =>
          rw [hw] at h
          simp only [Except.ok.injEq, Prod.mk.injEq] at h
          exact Or.inr ⟨rfl, congrArg some h.1, h.2.symm⟩
      | some x =>
        rw [hf] at h
        cases x with
        | dir es => simp only at h; cases h
        | file b =>
          simp only at h
          cases hdec : pyUtf8Decode .strict b with
          | none => rw [hdec] at h; cases h
          | some cs =>
            rw [hdec] at h
            simp only at h
            refine Or.inl ⟨b, cs, rfl, hdec, ?_⟩
            by_cases hne : String.mk (univNl cs) ≠ s
            · rw [if_pos hne] at h
              cases hw : fs1.writeFile q (utf8Encode s) with
              | none => rw [hw] at h; cases h
              | some fs2 =>
                rw [hw] at h
                simp only [Except.ok.injEq, Prod.mk.injEq] at h
                exact Or.inr ⟨hne, congrArg some h.1, h.2.symm⟩
            · rw [if_neg hne] at h
              simp only [Except.ok.injEq, Prod.mk.injEq] at h
              push_neg at hne
              exact Or.inl ⟨hne, h.1.symm, h.2.symm⟩

/-- The on-disk text at `q` after a successful `update_or_create_file` is
the written content as Python would read it back. -/
theorem update_post {fs fs' : FSEntry} {q : List String} {s : String} {evs : List Event}
    (h : update_or_create_file fs q s = .ok (fs', evs)) :
    fs'.readText q = some (String.mk (univNl s.data)) := by
  rcases update_cases h with ⟨fs1, evs1, _, hmain⟩
  rcases hmain with ⟨b, cs, hf, hdec, hcase⟩ | ⟨hf, hw, _⟩
  · rcases hcase with ⟨heq, hfs, _⟩ | ⟨_, hw, _⟩
    · subst hfs
      have hdata : s.data = univNl cs := by rw [← heq]
      simp only [FSEntry.readText, hf, hdec, hdata, univNl_idem]
    · have hff := FSEntry.writeFile_find hw
      simp only [FSEntry.readText, hff, pyUtf8Decode_encode]
  · have hff := FSEntry.writeFile_find hw
    simp only [FSEntry.readText, hff, pyUtf8Decode_encode]

/-- Frame: `update_or_create_file` changes `find` only at leading segments of its
file path. -/
theorem update_frame {fs fs' : FSEntry} {q : List String} {s : String} {evs : List Event}
    (h : update_or_create_file fs q s = .ok (fs', evs)) {r : List String}
    (hr : pfx r q = false) : fs'.find r = fs.find r := by
  rcases update_cases h with ⟨fs1, evs1, hstep, hmain⟩
  have hdl : pfx r q.dropLast = false := by
    cases hx : pfx r q.dropLast
    · rfl
    · exact absurd (pfx_trans hx (pfx_dropLast q)) (by simp [hr])
  have h1 : fs1.find r = fs.find r := by
    rcases hstep with ⟨he, _, _⟩ | ⟨_, hm, _⟩
    · rw [he]
    · exact FSEntry.makedirs_frame hm hdl
  rcases hmain with ⟨b, cs, hf, hdec, hcase⟩ | ⟨hf, hw, _⟩
  · rcases hcase with ⟨_, hfs, _⟩ | ⟨_, hw, _⟩
    · rw [hfs, h1]
    · rw [FSEntry.writeFile_frame hw hr, h1]
  · rw [FSEntry.writeFile_frame hw hr, h1]

/-- Directories survive `update_or_create_file`. -/
theorem update_mono_dir {fs fs' : FSEntry} {q : List String} {s : String} {evs : List Event}
    (h : update_or_create_file fs q s = .ok (fs', evs)) {r : List String} {es0 : FSEntries}
    (hf0 : fs.find r = some (.dir es0)) : ∃ es1, fs'.find r = some (.dir es1) := by
  rcases update_cases h with ⟨fs1, evs1, hstep, hmain⟩
  have h1 : ∃ esm, fs1.find r = some (.dir esm) := by
    rcases hstep with ⟨he, _, _⟩ | ⟨_, hm, _⟩
    · exact ⟨es0, by rw [he, hf0]⟩
    · exact FSEntry.makedirs_mono_dir hm hf0
  rcases h1 with ⟨esm, hesm⟩
  rcases hmain with ⟨b, cs, hf, hdec, hcase⟩ | ⟨hf, hw, _⟩
  · rcases hcase with ⟨_, hfs, _⟩ | ⟨_, hw, _⟩
    · exact ⟨esm, by rw [hfs, hesm]⟩
    · exact FSEntry.writeFile_mono_dir hw hesm
  · exact FSEntry.writeFile_mono_dir hw hesm

/-- After a successful `update_or_create_file` every strict leading
segment of the file path is a directory. -/
theorem update_parents {fs fs' : FSEntry} {q : List String} {s : String} {evs : List Event}
    (h : update_or_create_file fs q s = .ok (fs', evs)) {r : List String}
    (hr : pfx r q = true) (hne : r ≠ q) : ∃ es, fs'.find r = some (.dir es) := by
  have hp := update_post h
  unfold FSEntry.readText at hp
  cases hf : fs'.find q with
  | none => rw [hf] at hp; cases hp
  | some x =>
    rw [hf] at hp
    cases x with
    | dir es => simp at hp
    | file b => exact FSEntry.find_parents hf hr hne

theorem pfx_chain {a b c : List String} (h1 : pfx a c = true) (h2 : pfx b c = true) :
    pfx a b = true ∨ pfx b a = true := by
  induction c generalizing a b with
  | nil =>
    rw [pfx_nil_right h1, pfx_nil_right h2]
    left
    rfl
  | cons z cs ih =>
    match a, b with
    | [], _ => left; rfl
    | _ :: _, [] => right; rfl
    | x :: as, y :: bs =>
      simp only [pfx, Bool.and_eq_true, beq_iff_eq] at h1 h2 ⊢
      rcases ih h1.2 h2.2 with h | h
      · exact Or.inl ⟨h1.1.trans h2.1.symm, h⟩
      · exact Or.inr ⟨h2.1.trans h1.1.symm, h⟩

/-- Lift a local reconcile result at subtree `p` back to the whole tree. -/
def liftRes (fs : FSEntry) (p : List String) :
    Except PyErr (FSEntry × List Event) → Except PyErr (FSEntry × List Event)
  | .error e => .error e
  | .ok (s', evs) => .ok (fs.setAt p s', evs)

/-- Locality: `update_or_create_file` at a path below an existing subtree acts
locally on that subtree. -/
theorem update_loc {fs : FSEntry} {p : List String} {sub : FSEntry}
    (h : fs.find p = some sub) {q : List String} (hq : q ≠ []) (s : String) :
    update_or_create_file fs (p ++ q) s = liftRes fs p (update_or_create_file sub q s) := by
  have hps : (fs.find p).isSome = true := by rw [h]; rfl
  have hdl : (p ++ q).dropLast = p ++ q.dropLast := List.dropLast_append_of_ne_nil p hq
  have hfind1 : fs.find ((p ++ q).dropLast) = sub.find q.dropLast := by
    rw [hdl, FSEntry.find_append, h]
    rfl
  have hfindq : fs.find (p ++ q) = sub.find q := by
    rw [FSEntry.find_append, h]
    rfl
  simp only [update_or_create_file]
  rw [hfind1, hdl]
  by_cases hd : (sub.find q.dropLast).isSome = true
  · simp only [hd, if_true]
    rw [hfindq]
    cases hf : sub.find q with
    | none =>
      simp only
      rw [FSEntry.writeFile_loc h hq (utf8Encode s)]
      cases hw : sub.writeFile q (utf8Encode s) with
      | none => rfl
      | some x => rfl
    | some x =>
      cases x with
      | dir es => rfl
      | file b =>
        simp only
        cases hdec : pyUtf8Decode .strict b with
        | none => rfl
        | some cs =>
          simp only
          by_cases hne : String.mk (univNl cs) ≠ s
          · rw [if_pos hne, if_pos hne]
            rw [FSEntry.writeFile_loc h hq (utf8Encode s)]
            cases hw : sub.writeFile q (utf8Encode s) with
            | none => rfl
            | some x => rfl
          · rw [if_neg hne, if_neg hne]
            simp only [liftRes, FSEntry.setAt_of_find h]
  · simp only [hd, Bool.false_eq_true, if_false]
    rw [FSEntry.makedirs_loc h q.dropLast]
    cases hm : sub.makedirs q.dropLast with
    | none => rfl
    | some subm =>
      simp only [Option.map_some']
      have hps2 : ((fs.setAt p subm).find p).isSome = true := by
        rw [FSEntry.find_setAt_self hps subm]
        rfl
      have hfindq2 : (fs.setAt p subm).find (p ++ q) = subm.find q :=
        FSEntry.find_setAt_append hps subm q
      rw [hfindq2]
      cases hf : subm.find q with
      | none =>
        simp only
        rw [FSEntry.writeFile_loc (FSEntry.find_setAt_self hps subm) hq (utf8Encode s)]
        cases hw : subm.writeFile q (utf8Encode s) with
        | none => rfl
        | some x =>
          simp only [Option.map_some', FSEntry.setAt_setAt]
          rfl
      | some x =>
        cases x with
        | dir es => rfl
        | file b =>
          simp only
          cases hdec : pyUtf8Decode .strict b with
          | none => rfl
          | some cs =>
            simp only
            by_cases hne : String.mk (univNl cs) ≠ s
            · rw [if_pos hne, if_pos hne]
              rw [FSEntry.writeFile_loc (FSEntry.find_setAt_self hps subm) hq (utf8Encode s)]
              cases hw : subm.writeFile q (utf8Encode s) with
              | none => rfl
              | some x =>
                simp only [Option.map_some', FSEntry.setAt_setAt]
                rfl
            · rw [if_neg hne, if_neg hne]
              rfl

/-! ### Document predicates -/

/-- Every value in the document tree is a string or a dict. -/
def JEntries.wellShapedB : JEntries → Bool
  | .nil => true
  | .cons _ v rest =>
    (match v with
     | .jstr _ => true
     | .obj sub => sub.wellShapedB
     | .other => false) && rest.wellShapedB

/-- Some string leaf occurs in the forest. -/
def JEntries.hasLeafB : JEntries → Bool
  | .nil => false
  | .cons _ v rest =>
    (match v with
     | .jstr _ => true
     | .obj sub => sub.hasLeafB
     | .other => false) || rest.hasLeafB

/-- Keys are duplicate-free at every level (as `json.load` guarantees). -/
def JEntries.nodupKeysB : JEntries → Bool
  | .nil => true
  | .cons n v rest =>
    !(rest.keys.contains n) &&
    (match v with
     | .obj sub => sub.nodupKeysB
     | _ => true) && rest.nodupKeysB

/-- No string value contains a carriage return. -/
def JEntries.crFreeB : JEntries → Bool
  | .nil => true
  | .cons _ v rest =>
    (match v with
     | .jstr s => !(s.data.contains '\r')
     | .obj sub => sub.crFreeB
     | .other => true) && rest.crFreeB

/-! ### `recurse_structure` lemmas -/

theorem find_extends_isSome {e : FSEntry} {a b : List String}
    (h : (e.find (a ++ b)).isSome = true) : (e.find a).isSome = true := by
  rw [FSEntry.find_append] at h
  cases hf : e.find a with
  | none => rw [hf] at h; cases h
  | some x => rfl

theorem readText_find {e : FSEntry} {q : List String} {s : String}
    (h : e.readText q = some s) : ∃ b, e.find q = some (.file b) := by
  unfold FSEntry.readText at h
  cases hf : e.find q with
  | none => rw [hf] at h; cases h
  | some x =>
    rw [hf] at h
    cases x with
    | dir es => simp at h
    | file b => exact ⟨b, rfl⟩

/-- Totality of failure: the update path for a non-string, non-dict
value always raises. -/
theorem update_other_always_error (fs : FSEntry) (p : List String) :
    ∃ e, update_or_create_file_other fs p = .error e := by
  simp only [update_or_create_file_other]
  by_cases hd : (fs.find p.dropLast).isSome = true
  · rw [if_pos hd]
    simp only
    cases hf : fs.find p with
    | none =>
      simp only
      cases hw : fs.writeFile p [] with
      | none => exact ⟨.ioError, rfl⟩
      | some x => exact ⟨.malformedDocument, rfl⟩
    | some x =>
      cases x with
      | dir es => exact ⟨.isADirectoryError, rfl⟩
      | file b =>
        simp only
        cases hdec : pyUtf8Decode .strict b with
        | none => exact ⟨.unicodeDecodeError, rfl⟩
        | some cs =>
          simp only
          cases hw : fs.writeFile p [] with
          | none => exact ⟨.ioError, rfl⟩
          | some x => exact ⟨.malformedDocument, rfl⟩
  · rw [if_neg hd]
    cases hm : fs.makedirs p.dropLast with
    | none => exact ⟨.ioError, rfl⟩
    | some fs1 =>
      simp only
      cases hf : fs1.find p with
      | none =>
        simp only
        cases hw : fs1.writeFile p [] with
        | none => exact ⟨.ioError, rfl⟩
        | some x => exact ⟨.malformedDocument, rfl⟩
      | some x =>
        cases x with
        | dir es => exact ⟨.isADirectoryError, rfl⟩
        | file b =>
          simp only
          cases hdec : pyUtf8Decode .strict b with
          | none => exact ⟨.unicodeDecodeError, rfl⟩
          | some cs =>
            simp only
            cases hw : fs1.writeFile p [] with
            | none => exact ⟨.ioError, rfl⟩
            | some x => exact ⟨.malformedDocument, rfl⟩

/-- Locality: the non-string update path at a path below an existing
subtree raises the same error as on that subtree. -/
theorem update_other_loc {fs : FSEntry} {p : List String} {sub : FSEntry}
    (h : fs.find p = some sub) {q : List String} (hq : q ≠ []) :
    update_or_create_file_other fs (p ++ q) = update_or_create_file_other sub q := by
  have hps : (fs.find p).isSome = true := by rw [h]; rfl
  have hdl : (p ++ q).dropLast = p ++ q.dropLast := List.dropLast_append_of_ne_nil p hq
  have hfind1 : fs.find ((p ++ q).dropLast) = sub.find q.dropLast := by
    rw [hdl, FSEntry.find_append, h]
    rfl
  have hfindq : fs.find (p ++ q) = sub.find q := by
    rw [FSEntry.find_append, h]
    rfl
  simp only [update_or_create_file_other]
  rw [hfind1, hdl]
  by_cases hd : (sub.find q.dropLast).isSome = true
  · simp only [hd, if_true]
    rw [hfindq]
    cases hf : sub.find q with
    | none =>
      simp only
      rw [FSEntry.writeFile_loc h hq []]
      cases hw : sub.writeFile q [] with
      | none => rfl
      | some x => rfl
    | some x =>
      cases x with
      | dir es => rfl
      | file b =>
        simp only
        cases hdec : pyUtf8Decode .strict b with
        | none => rfl
        | some cs =>
          simp only
          rw [FSEntry.writeFile_loc h hq []]
          cases hw : sub.writeFile q [] with
          | none => rfl
          | some x => rfl
  · simp only [hd, Bool.false_eq_true, if_false]
    rw [FSEntry.makedirs_loc h q.dropLast]
    cases hm : sub.makedirs q.dropLast with
    | none => rfl
    | some subm =>
      simp only [Option.map_some']
      have hps2 : ((fs.setAt p subm).find p).isSome = true := by
        rw [FSEntry.find_setAt_self hps subm]
        rfl
      have hfindq2 : (fs.setAt p subm).find (p ++ q) = subm.find q :=
        FSEntry.find_setAt_append hps subm q
      rw [hfindq2]
      cases hf : subm.find q with
      | none =>
        simp only
        rw [FSEntry.writeFile_loc (FSEntry.find_setAt_self hps subm) hq []]
        cases hw : subm.writeFile q [] with
        | none => rfl
        | some x => rfl
      | some x =>
        cases x with
        | dir es => rfl
        | file b =>
          simp only
          cases hdec : pyUtf8Decode .strict b with
          | none => rfl
          | some cs =>
            simp only
            rw [FSEntry.writeFile_loc (FSEntry.find_setAt_self hps subm) hq []]
            cases hw : subm.writeFile q [] with
            | none => rfl
            | some x => rfl

/-- Locality: `recurse_structure` below an existing subtree acts locally on it. -/
theorem recurse_loc : ∀ (entries : JEntries) {fs : FSEntry} {p : List String} {sub : FSEntry},
    fs.find p = some sub → ∀ t : List String,
    recurse_structure fs entries (p ++ t) = liftRes fs p (recurse_structure sub entries t)
  | .nil, fs, p, sub, h, t => by
    simp only [recurse_structure, liftRes, FSEntry.setAt_of_find h]
  | .cons name v rest, fs, p, sub, h, t => by
    have hps : (fs.find p).isSome = true := by rw [h]; rfl
    match v with
    | .other =>
      simp only [recurse_structure]
      rw [List.append_assoc, update_other_loc h (by simp)]
      obtain ⟨e0, he0⟩ := update_other_always_error sub (t ++ [name])
      rw [he0]
      rfl
    | .jstr s =>
      simp only [recurse_structure]
      rw [List.append_assoc]
      rw [update_loc h (by simp) s]
      cases hu : update_or_create_file sub (t ++ [name]) s with
      | error e => rfl
      | ok x =>
        match x with
        | (sub1, evs1) =>
          simp only [liftRes]
          rw [recurse_loc rest (FSEntry.find_setAt_self hps sub1) t]
          cases hr2 : recurse_structure sub1 rest t with
          | error e => rfl
          | ok y =>
            match y with
            | (sub2, evs2) =>
              simp only [liftRes, FSEntry.setAt_setAt]
    | .obj sub2 =>
      simp only [recurse_structure]
      rw [List.append_assoc]
      rw [recurse_loc sub2 h (t ++ [name])]
      cases hu : recurse_structure sub sub2 (t ++ [name]) with
      | error e => rfl
      | ok x =>
        match x with
        | (subA, evs1) =>
          simp only [liftRes]
          rw [recurse_loc rest (FSEntry.find_setAt_self hps subA) t]
          cases hr2 : recurse_structure subA rest t with
          | error e => rfl
          | ok y =>
            match y with
            | (subB, evs2) =>
              simp only [liftRes, FSEntry.setAt_setAt]

/-- Frame: `recurse_structure` changes `find` only at leading segments of paths
below its keys. -/
theorem recurse_frame : ∀ (entries : JEntries) {fs fs' : FSEntry} {t : List String}
    {evs : List Event} {r : List String},
    recurse_structure fs entries t = .ok (fs', evs) →
    (∀ k ∈ entries.keys, pfx r (t ++ [k]) = false ∧ pfx (t ++ [k]) r = false) →
    fs'.find r = fs.find r
  | .nil, fs, fs', t, evs, r, h, _ => by
    simp only [recurse_structure, Except.ok.injEq, Prod.mk.injEq] at h
    rw [← h.1]
  | .cons name v rest, fs, fs', t, evs, r, h, hr => by
    have hname := hr name (by rw [JEntries.keys]; exact List.mem_cons_self _ _)
    have hrest : ∀ k ∈ rest.keys, pfx r (t ++ [k]) = false ∧ pfx (t ++ [k]) r = false :=
      fun k hk => hr k (by rw [JEntries.keys]; exact List.mem_cons_of_mem _ hk)
    match v with
    | .other =>
      simp only [recurse_structure] at h
      obtain ⟨e0, he0⟩ := update_other_always_error fs (t ++ [name])
      rw [he0] at h
      cases h
    | .jstr s =>
      simp only [recurse_structure] at h
      cases hu : update_or_create_file fs (t ++ [name]) s with
      | error e => rw [hu] at h; cases h
      | ok x =>
        rw [hu] at h
        match x with
        | (fs1, evs1) =>
          simp only at h
          cases hr2 : recurse_structure fs1 rest t with
          | error e => rw [hr2] at h; cases h
          | ok y =>
            rw [hr2] at h
            match y with
            | (fs2, evs2) =>
              simp only [Except.ok.injEq, Prod.mk.injEq] at h
              rw [← h.1]
              rw [recurse_frame rest hr2 hrest]
              exact update_frame hu hname.1
    | .obj sub =>
      simp only [recurse_structure] at h
      cases hu : recurse_structure fs sub (t ++ [name]) with
      | error e => rw [hu] at h; cases h
      | ok x =>
        rw [hu] at h
        match x with
        | (fs1, evs1) =>
          simp only at h
          cases hr2 : recurse_structure fs1 rest t with
          | error e => rw [hr2] at h; cases h
          | ok y =>
            rw [hr2] at h
            match y with
            | (fs2, evs2) =>
              simp only [Except.ok.injEq, Prod.mk.injEq] at h
              rw [← h.1]
              rw [recurse_frame rest hr2 hrest]
              refine recurse_frame sub hu ?_
              intro k' _
              constructor
              · cases hx : pfx r (t ++ [name] ++ [k']) with
                | false => rfl
                | true =>
                  exfalso
                  have hcmp := pfx_chain hx (pfx_append (t ++ [name]) [k'])
                  rcases hcmp with hc | hc
                  · rw [hname.1] at hc; cases hc
                  · rw [hname.2] at hc; cases hc
              · cases hx : pfx (t ++ [name] ++ [k']) r with
                | false => rfl
                | true =>
                  exfalso
                  have := pfx_trans (pfx_append (t ++ [name]) [k']) hx
                  rw [hname.2] at this
                  cases this

/-- Directories survive `recurse_structure`. -/
theorem recurse_mono_dir : ∀ (entries : JEntries) {fs fs' : FSEntry} {t : List String}
    {evs : List Event} {r : List String} {es0 : FSEntries},
    recurse_structure fs entries t = .ok (fs', evs) →
    fs.find r = some (.dir es0) → ∃ es1, fs'.find r = some (.dir es1)
  | .nil, fs, fs', t, evs, r, es0, h, hf => by
    simp only [recurse_structure, Except.ok.injEq, Prod.mk.injEq] at h
    rw [← h.1]
    exact ⟨es0, hf⟩
  | .cons name v rest, fs, fs', t, evs, r, es0, h, hf => by
    match v with
    | .other =>
      simp only [recurse_structure] at h
      obtain ⟨e0, he0⟩ := update_other_always_error fs (t ++ [name])
      rw [he0] at h
      cases h
    | .jstr s =>
      simp only [recurse_structure] at h
      cases hu : update_or_create_file fs (t ++ [name]) s with
      | error e => rw [hu] at h; cases h
      | ok x =>
        rw [hu] at h
        match x with
        | (fs1, evs1) =>
          simp only at h
          cases hr2 : recurse_structure fs1 rest t with
          | error e => rw [hr2] at h; cases h
          | ok y =>
            rw [hr2] at h
            match y with
            | (fs2, evs2) =>
              simp only [Except.ok.injEq, Prod.mk.injEq] at h
              rw [← h.1]
              rcases update_mono_dir hu hf with ⟨esm, hesm⟩
              exact recurse_mono_dir rest hr2 hesm
    | .obj sub =>
      simp only [recurse_structure] at h
      cases hu : recurse_structure fs sub (t ++ [name]) with
      | error e => rw [hu] at h; cases h
      | ok x =>
        rw [hu] at h
        match x with
        | (fs1, evs1) =>
          simp only at h
          cases hr2 : recurse_structure fs1 rest t with
          | error e => rw [hr2] at h; cases h
          | ok y =>
            rw [hr2] at h
            match y with
            | (fs2, evs2) =>
              simp only [Except.ok.injEq, Prod.mk.injEq] at h
              rw [← h.1]
              rcases recurse_mono_dir sub hu hf with ⟨esm, hesm⟩
              exact recurse_mono_dir rest hr2 hesm

/-- An `ok` run with no events did not change the tree. -/
theorem recurse_noop_inv : ∀ (entries : JEntries) {fs fs' : FSEntry} {t : List String},
    recurse_structure fs entries t = .ok (fs', []) → fs' = fs
  | .nil, fs, fs', t, h => by
    simp only [recurse_structure, Except.ok.injEq, Prod.mk.injEq] at h
    exact h.1.symm
  | .cons name v rest, fs, fs', t, h => by
    match v with
    | .other =>
      simp only [recurse_structure] at h
      obtain ⟨e0, he0⟩ := update_other_always_error fs (t ++ [name])
      rw [he0] at h
      cases h
    | .jstr s =>
      simp only [recurse_structure] at h
      cases hu : update_or_create_file fs (t ++ [name]) s with
      | error e => rw [hu] at h; cases h
      | ok x =>
        rw [hu] at h
        match x with
        | (fs1, evs1) =>
          simp only at h
          cases hr2 : recurse_structure fs1 rest t with
          | error e => rw [hr2] at h; cases h
          | ok y =>
            rw [hr2] at h
            match y with
            | (fs2, evs2) =>
              simp only [Except.ok.injEq, Prod.mk.injEq] at h
              rcases List.append_eq_nil.mp h.2 with ⟨he1, he2⟩
              subst he1
              subst he2
              have h1 := (update_noop_inv hu).1
              have h2 := recurse_noop_inv rest hr2
              rw [← h.1, h2, h1]
    | .obj sub =>
      simp only [recurse_structure] at h
      cases hu : recurse_structure fs sub (t ++ [name]) with
      | error e => rw [hu] at h; cases h
      | ok x =>
        rw [hu] at h
        match x with
        | (fs1, evs1) =>
          simp only at h
          cases hr2 : recurse_structure fs1 rest t with
          | error e => rw [hr2] at h; cases h
          | ok y =>
            rw [hr2] at h
            match y with
            | (fs2, evs2) =>
              simp only [Except.ok.injEq, Prod.mk.injEq] at h
              rcases List.append_eq_nil.mp h.2 with ⟨he1, he2⟩
              subst he1
              subst he2
              have h1 := recurse_noop_inv sub hu
              have h2 := recurse_noop_inv rest hr2
              rw [← h.1, h2, h1]

/-- A well-shaped forest with no string leaf performs no operation at
all. -/
theorem recurse_no_leaf : ∀ (entries : JEntries) {t : List String} (fs : FSEntry),
    JEntries.hasLeafB entries = false → JEntries.wellShapedB entries = true →
    recurse_structure fs entries t = .ok (fs, [])
  | .nil, t, fs, _, _ => rfl
  | .cons name v rest, t, fs, hl, hw => by
    match v with
    | .other => simp [JEntries.wellShapedB] at hw
    | .jstr s => simp [JEntries.hasLeafB] at hl
    | .obj sub =>
      simp only [JEntries.hasLeafB, Bool.or_eq_false_iff] at hl
      simp only [JEntries.wellShapedB, Bool.and_eq_true] at hw
      simp only [recurse_structure]
      rw [recurse_no_leaf sub fs hl.1 hw.1]
      simp only
      rw [recurse_no_leaf rest fs hl.2 hw.2]
      rfl

/-- A no-op run over a forest that does contain a leaf must have read the
base directory. -/
theorem recurse_noop_find : ∀ (entries : JEntries) {fs : FSEntry} {t : List String},
    recurse_structure fs entries t = .ok (fs, []) →
    JEntries.hasLeafB entries = true → (fs.find t).isSome = true
  | .nil, fs, t, _, hl => by simp [JEntries.hasLeafB] at hl
  | .cons name v rest, fs, t, h, hl => by
    match v with
    | .other =>
      simp only [recurse_structure] at h
      obtain ⟨e0, he0⟩ := update_other_always_error fs (t ++ [name])
      rw [he0] at h
      cases h
    | .jstr s =>
      simp only [recurse_structure] at h
      cases hu : update_or_create_file fs (t ++ [name]) s with
      | error e => rw [hu] at h; cases h
      | ok x =>
        rw [hu] at h
        match x with
        | (fs1, evs1) =>
          simp only at h
          cases hr2 : recurse_structure fs1 rest t with
          | error e => rw [hr2] at h; cases h
          | ok y =>
            rw [hr2] at h
            match y with
            | (fs2, evs2) =>
              simp only [Except.ok.injEq, Prod.mk.injEq] at h
              rcases List.append_eq_nil.mp h.2 with ⟨he1, he2⟩
              subst he1
              have hinv := update_noop_inv hu
              have := hinv.2.1
              rwa [List.dropLast_concat] at this
    | .obj sub =>
      simp only [recurse_structure] at h
      cases hu : recurse_structure fs sub (t ++ [name]) with
      | error e => rw [hu] at h; cases h
      | ok x =>
        rw [hu] at h
        match x with
        | (fs1, evs1) =>
          simp only at h
          cases hr2 : recurse_structure fs1 rest t with
          | error e => rw [hr2] at h; cases h
          | ok y =>
            rw [hr2] at h
            match y with
            | (fs2, evs2) =>
              simp only [Except.ok.injEq, Prod.mk.injEq] at h
              rcases List.append_eq_nil.mp h.2 with ⟨he1, he2⟩
              subst he1
              subst he2
              have hfs1 : fs1 = fs := recurse_noop_inv sub hu
              subst hfs1
              simp only [JEntries.hasLeafB, Bool.or_eq_true] at hl
              rcases hl with hl | hl
              · exact find_extends_isSome (a := t) (b := [name])
                  (recurse_noop_find sub hu hl)
              · have hfs2 : fs2 = fs1 := recurse_noop_inv rest hr2
                rw [← h.1, hfs2] at hr2 ⊢
                exact recurse_noop_find rest hr2 hl

/-- A no-op run transfers to any tree that agrees on the subtree it
reads. -/
theorem recurse_noop_transfer (entries : JEntries) {f g : FSEntry} {t : List String}
    (hw : JEntries.wellShapedB entries = true)
    (h : recurse_structure f entries t = .ok (f, []))
    (hag : ∀ r, pfx t r = true → g.find r = f.find r) :
    recurse_structure g entries t = .ok (g, []) := by
  cases hl : JEntries.hasLeafB entries with
  | false => exact recurse_no_leaf entries g hl hw
  | true =>
    have hfs : (f.find t).isSome = true := recurse_noop_find entries h hl
    cases hft : f.find t with
    | none => rw [hft] at hfs; cases hfs
    | some sub =>
      have hgt : g.find t = some sub := by rw [hag t (pfx_refl t), hft]
      have hf2 := h
      rw [show t = t ++ [] by simp] at hf2
      rw [recurse_loc entries hft []] at hf2
      cases hx : recurse_structure sub entries [] with
      | error e => rw [hx] at hf2; cases hf2
      | ok y =>
        rw [hx] at hf2
        match y with
        | (sub', evs) =>
          simp only [liftRes, Except.ok.injEq, Prod.mk.injEq] at hf2
          have hsub : sub' = sub := by
            have h1 : (f.setAt t sub').find t = some sub' :=
              FSEntry.find_setAt_self (by rw [hft]; rfl) sub'
            rw [hf2.1, hft] at h1
            injection h1 with h1
            exact h1.symm
          rw [show t = t ++ [] by simp]
          rw [recurse_loc entries hgt [], hx]
          simp only [liftRes, hsub, hf2.2]
          rw [FSEntry.setAt_of_find hgt]

/-- Reconciliation is idempotent for carriage-return-free documents with
duplicate-free keys: a second run from the resulting tree changes nothing
and logs nothing. -/
theorem recurse_idem : ∀ (entries : JEntries) {fs fs' : FSEntry} {t : List String}
    {evs : List Event},
    JEntries.wellShapedB entries = true →
    JEntries.nodupKeysB entries = true →
    JEntries.crFreeB entries = true →
    recurse_structure fs entries t = .ok (fs', evs) →
    recurse_structure fs' entries t = .ok (fs', [])
  | .nil, fs, fs', t, evs, _, _, _, h => by
    simp only [recurse_structure, Except.ok.injEq, Prod.mk.injEq] at h
    rfl
  | .cons name v rest, fs, fs', t, evs, hw, hnd, hcr, h => by
    match v with
    | .other =>
      simp only [recurse_structure] at h
      obtain ⟨e0, he0⟩ := update_other_always_error fs (t ++ [name])
      rw [he0] at h
      cases h
    | .jstr s =>
      simp only [JEntries.wellShapedB, Bool.and_eq_true, true_and, and_true] at hw
      simp only [JEntries.nodupKeysB, Bool.and_eq_true, Bool.not_eq_true', true_and,
        and_true] at hnd
      simp only [JEntries.crFreeB, Bool.and_eq_true, Bool.not_eq_true', true_and,
        and_true] at hcr
      simp only [recurse_structure] at h ⊢
      cases hu : update_or_create_file fs (t ++ [name]) s with
      | error e => rw [hu] at h; cases h
      | ok x =>
        rw [hu] at h
        match x with
        | (fs1, evs1) =>
          simp only at h
          cases hr2 : recurse_structure fs1 rest t with
          | error e => rw [hr2] at h; cases h
          | ok y =>
            rw [hr2] at h
            match y with
            | (fs2, evs2) =>
              simp only [Except.ok.injEq, Prod.mk.injEq] at h
              rw [← h.1]
              -- the file now reads back as `s`, and the rest of the run
              -- does not touch it
              have hpost := update_post hu
              have hcrs : univNl s.data = s.data :=
                univNl_of_no_cr s.data (by simpa using hcr.1)
              rw [hcrs] at hpost
              have hframe : fs2.find (t ++ [name]) = fs1.find (t ++ [name]) := by
                refine recurse_frame rest hr2 ?_
                intro k hk
                have hkne : name ≠ k := fun he => by
                  rw [← he] at hk
                  have hc : name ∉ rest.keys := by simpa using hnd.1
                  exact hc hk
                constructor
                · have := not_pfx_of_head_ne (x := ([] : List String)) (y := ([] : List String))
                    (p := t) hkne
                  simpa using this
                · have := not_pfx_of_head_ne (x := ([] : List String)) (y := ([] : List String))
                    (p := t) (fun he => hkne he.symm)
                  simpa using this
              have hrt : fs2.readText (t ++ [name]) = some s := by
                unfold FSEntry.readText at hpost ⊢
                rw [hframe]
                exact hpost
              have hds : ((fs2.find (t ++ [name]).dropLast)).isSome = true := by
                rcases readText_find hrt with ⟨b, hb⟩
                exact FSEntry.find_dropLast_isSome hb
              rw [update_skip hds hrt]
              simp only
              rw [recurse_idem rest hw hnd.2 hcr.2 hr2]
              rfl
    | .obj sub =>
      simp only [JEntries.wellShapedB, Bool.and_eq_true, true_and, and_true] at hw
      simp only [JEntries.nodupKeysB, Bool.and_eq_true, Bool.not_eq_true', true_and,
        and_true] at hnd
      simp only [JEntries.crFreeB, Bool.and_eq_true, Bool.not_eq_true', true_and,
        and_true] at hcr
      simp only [recurse_structure] at h ⊢
      cases hu : recurse_structure fs sub (t ++ [name]) with
      | error e => rw [hu] at h; cases h
      | ok x =>
        rw [hu] at h
        match x with
        | (fsA, evs1) =>
          simp only at h
          cases hr2 : recurse_structure fsA rest t with
          | error e => rw [hr2] at h; cases h
          | ok y =>
            rw [hr2] at h
            match y with
            | (fs2, evs2) =>
              simp only [Except.ok.injEq, Prod.mk.injEq] at h
              rw [← h.1]
              have hidem := recurse_idem sub hw.1 hnd.1.2 hcr.1 hu
              have htrans : recurse_structure fs2 sub (t ++ [name]) = .ok (fs2, []) := by
                refine recurse_noop_transfer sub hw.1 hidem ?_
                intro r hpr
                rcases (pfx_iff _ _).mp hpr with ⟨r', hr'⟩
                subst hr'
                refine recurse_frame rest hr2 ?_
                intro k hk
                have hkne : name ≠ k := fun he => by
                  rw [← he] at hk
                  have hc : name ∉ rest.keys := by simpa using hnd.1.1
                  exact hc hk
                constructor
                · rw [List.append_assoc]
                  have := not_pfx_of_head_ne (x := r') (y := ([] : List String))
                    (p := t) hkne
                  simpa using this
                · rw [List.append_assoc]
                  have := not_pfx_of_head_ne (x := ([] : List String)) (y := r')
                    (p := t) (fun he => hkne he.symm)
                  simpa using this
              rw [htrans]
              simp only
              rw [recurse_idem rest hw.2 hnd.2 hcr.2 hr2]
              rfl

/-! ### Building a fresh tree from a document -/

/-- The tree a document forest denotes: files hold the UTF-8 encoding of
their string, dicts become directories. -/
def buildEntries : JEntries → FSEntries
  | .nil => .nil
  | .cons n v rest =>
    .cons n
      (match v with
       | .jstr s => .file (utf8Encode s)
       | .obj sub => .dir (buildEntries sub)
       | .other => .file [])
      (buildEntries rest)

/-- Predicate: `entries` satisfying the buildability invariant: well-shaped,
duplicate-free keys, and every dict value contains some file. -/
def JEntries.buildableB : JEntries → Bool
  | .nil => true
  | .cons n v rest =>
    (match v with
     | .jstr _ => true
     | .obj sub => sub.hasLeafB && sub.buildableB
     | .other => false) && !(rest.keys.contains n) && rest.buildableB

theorem JEntries.hasLeaf_ne_nil {es : JEntries} (h : es.hasLeafB = true) : es ≠ .nil := by
  intro he
  subst he
  simp [JEntries.hasLeafB] at h

theorem FSEntries.app_cons (n : String) (e : FSEntry) (ys : FSEntries) :
    (FSEntries.cons n e .nil).app ys = .cons n e ys := rfl

theorem FSEntry.find_cons_none {cur : FSEntries} {n0 : String}
    (h : cur.lookupName n0 = none) (d' : List String) :
    (FSEntry.dir cur).find (n0 :: d') = none := by
  rw [FSEntry.find, h]

theorem chain_find : ∀ (d : List String) (X : FSEntries),
    (FSEntry.dir (chainEntries d X)).find d = some (.dir X)
  | [], X => rfl
  | n :: d', X => by
    rw [chainEntries, FSEntry.find]
    have hl : (FSEntries.cons n (FSEntry.dir (chainEntries d' X)) .nil).lookupName n =
        some (.dir (chainEntries d' X)) := by
      simp [FSEntries.lookupName]
    rw [hl]
    exact chain_find d' X

theorem chain_find_pre {cur : FSEntries} {n0 : String} (h : n0 ∉ cur.names)
    (d' : List String) (X : FSEntries) :
    (FSEntry.dir (cur.app (chainEntries (n0 :: d') X))).find (n0 :: d') =
      some (.dir X) := by
  rw [chainEntries, FSEntry.find]
  rw [FSEntries.lookupName_app_right h]
  have hl : (FSEntries.cons n0 (FSEntry.dir (chainEntries d' X)) .nil).lookupName n0 =
      some (.dir (chainEntries d' X)) := by
    simp [FSEntries.lookupName]
  rw [hl]
  exact chain_find d' X

theorem chain_setAt : ∀ (d : List String) (X Y : FSEntries),
    (FSEntry.dir (chainEntries d X)).setAt d (.dir Y) = .dir (chainEntries d Y)
  | [], X, Y => by rw [FSEntry.setAt_nil]; rfl
  | n :: d', X, Y => by
    rw [chainEntries, FSEntry.setAt]
    have hl : (FSEntries.cons n (FSEntry.dir (chainEntries d' X)) .nil).lookupName n =
        some (.dir (chainEntries d' X)) := by
      simp [FSEntries.lookupName]
    rw [hl]
    simp only [chain_setAt d' X Y]
    simp [FSEntries.setName, chainEntries]

theorem chain_setAt_pre {cur : FSEntries} {n0 : String} (h : n0 ∉ cur.names)
    (d' : List String) (X Y : FSEntries) :
    (FSEntry.dir (cur.app (chainEntries (n0 :: d') X))).setAt (n0 :: d') (.dir Y) =
      .dir (cur.app (chainEntries (n0 :: d') Y)) := by
  rw [chainEntries, FSEntry.setAt]
  rw [FSEntries.lookupName_app_right h]
  have hl : (FSEntries.cons n0 (FSEntry.dir (chainEntries d' X)) .nil).lookupName n0 =
      some (.dir (chainEntries d' X)) := by
    simp [FSEntries.lookupName]
  rw [hl]
  simp only [FSEntries.setName_app_right h]
  have hs : (FSEntries.cons n0 (FSEntry.dir (chainEntries d' X)) .nil).setName n0
      ((FSEntry.dir (chainEntries d' X)).setAt d' (.dir Y)) =
      .cons n0 ((FSEntry.dir (chainEntries d' X)).setAt d' (.dir Y)) .nil := by
    simp [FSEntries.setName]
  rw [hs, chain_setAt d' X Y]
  rfl

/-- Creating a file directly under an existing directory. -/
theorem update_create_root {cur : FSEntries} {name : String}
    (hn : cur.lookupName name = none) (s : String) :
    update_or_create_file (.dir cur) [name] s =
      .ok (.dir (cur.app (.cons name (.file (utf8Encode s)) .nil)), [Event.created]) := by
  simp only [update_or_create_file]
  have h1 : (FSEntry.dir cur).find ([name].dropLast) = some (.dir cur) := FSEntry.find_nil _
  rw [h1]
  simp only [Option.isSome_some, if_true]
  rw [FSEntry.find_dir_single, hn]
  simp only
  rw [FSEntry.writeFile_single, hn]
  simp only
  rw [FSEntries.setName_fresh (FSEntries.not_mem_of_lookupName_none hn)]
  rfl

/-- Creating a file below a missing directory chain: `os.makedirs`
creates the chain, then the file is created inside it. -/
theorem update_create_chain {cur : FSEntries} {n0 : String} {d' : List String}
    {name : String} (hn0 : n0 ∉ cur.names) (s : String) :
    update_or_create_file (.dir cur) ((n0 :: d') ++ [name]) s =
      .ok (.dir (cur.app (chainEntries (n0 :: d')
          (.cons name (.file (utf8Encode s)) .nil))),
        [Event.createdDir, Event.created]) := by
  have hlook : cur.lookupName n0 = none := FSEntries.lookupName_none_of_not_mem hn0
  simp only [update_or_create_file]
  rw [List.dropLast_concat]
  rw [FSEntry.find_cons_none hlook d']
  simp only [Option.isSome_none, Bool.false_eq_true, if_false]
  rw [FSEntry.makedirs_fresh hlook d']
  simp only
  have hfc : (FSEntry.dir (cur.app (chainEntries (n0 :: d') .nil))).find
      ((n0 :: d') ++ [name]) = none := by
    rw [FSEntry.find_append, chain_find_pre hn0 d' FSEntries.nil]
    rfl
  rw [hfc]
  simp only
  rw [FSEntry.writeFile_loc (chain_find_pre hn0 d' FSEntries.nil) (by simp)
    (utf8Encode s)]
  have hw : (FSEntry.dir FSEntries.nil).writeFile [name] (utf8Encode s) =
      some (.dir (.cons name (.file (utf8Encode s)) .nil)) := rfl
  rw [hw]
  simp only [Option.map_some']
  rw [chain_setAt_pre hn0 d' FSEntries.nil (.cons name (.file (utf8Encode s)) .nil)]
  rfl

/-- Reconciling a buildable document against a directory that is fresh
for it (the chain head, or at the root every top-level key, is absent)
creates exactly the tree the document denotes, appended to the existing
children. -/
theorem recurse_build : ∀ (entries : JEntries) (d : List String) (cur : FSEntries),
    JEntries.buildableB entries = true →
    (d = [] → ∀ k ∈ entries.keys, k ∉ cur.names) →
    (∀ n0 d', d = n0 :: d' → n0 ∉ cur.names ∧ entries ≠ JEntries.nil) →
    ∃ evs, recurse_structure (.dir cur) entries d =
      .ok (.dir (cur.app (chainEntries d (buildEntries entries))), evs)
  | .nil, d, cur, _, _, hd2 => by
    cases d with
    | nil =>
      exact ⟨[], by simp [recurse_structure, chainEntries, buildEntries, FSEntries.app_nil]⟩
    | cons n0 d' =>
      exact absurd rfl (hd2 n0 d' rfl).2
  | .cons name (.other) rest, d, cur, hb, _, _ => by
    simp [JEntries.buildableB] at hb
  | .cons name (.jstr s) rest, d, cur, hb, hd, hd2 => by
    simp only [JEntries.buildableB, Bool.and_eq_true, Bool.not_eq_true', true_and] at hb
    have hnm : name ∉ rest.keys := by simpa using hb.1
    cases d with
    | nil =>
      have hk := hd rfl
      have hkname : name ∉ cur.names := hk name (by simp [JEntries.keys])
      have hlook : cur.lookupName name = none := FSEntries.lookupName_none_of_not_mem hkname
      obtain ⟨evs2, hrec⟩ := recurse_build rest []
        (cur.app (.cons name (.file (utf8Encode s)) .nil)) hb.2
        (fun _ k hkmem => by
          rw [FSEntries.names_app]
          simp only [List.mem_append, not_or]
          refine ⟨hk k (by simp [JEntries.keys, hkmem]), ?_⟩
          intro hmem
          have hkn : k = name := by simpa [FSEntries.names] using hmem
          exact hnm (hkn ▸ hkmem))
        (fun n0 d' habs => absurd habs (by simp))
      refine ⟨[Event.created] ++ evs2, ?_⟩
      simp only [recurse_structure, List.nil_append, update_create_root hlook s, hrec]
      rw [FSEntries.app_assoc]
      rfl
    | cons n0 d'' =>
      have hn0 : n0 ∉ cur.names := (hd2 n0 d'' rfl).1
      have hfind : (FSEntry.dir (cur.app (chainEntries (n0 :: d'')
          (.cons name (.file (utf8Encode s)) .nil)))).find (n0 :: d'') =
          some (.dir (.cons name (.file (utf8Encode s)) .nil)) :=
        chain_find_pre hn0 d'' _
      obtain ⟨evs3, hrec⟩ := recurse_build rest []
        (.cons name (.file (utf8Encode s)) .nil) hb.2
        (fun _ k hkmem => by
          intro hmem
          have hkn : k = name := by simpa [FSEntries.names] using hmem
          exact hnm (hkn ▸ hkmem))
        (fun _ _ habs => absurd habs (by simp))
      have hloc : recurse_structure
          (.dir (cur.app (chainEntries (n0 :: d'')
            (.cons name (.file (utf8Encode s)) .nil)))) rest (n0 :: d'') =
          liftRes (.dir (cur.app (chainEntries (n0 :: d'')
            (.cons name (.file (utf8Encode s)) .nil)))) (n0 :: d'')
            (recurse_structure (.dir (.cons name (.file (utf8Encode s)) .nil)) rest []) := by
        have h := recurse_loc rest hfind []
        rwa [List.append_nil] at h
      refine ⟨[Event.createdDir, Event.created] ++ evs3, ?_⟩
      simp only [recurse_structure, update_create_chain hn0 s, hloc, hrec, liftRes]
      rw [chain_setAt_pre hn0 d'']
      rfl
  | .cons name (.obj sub) rest, d, cur, hb, hd, hd2 => by
    simp only [JEntries.buildableB, Bool.and_eq_true, Bool.not_eq_true'] at hb
    have hnm : name ∉ rest.keys := by simpa using hb.1.2
    have hsubne : sub ≠ JEntries.nil := JEntries.hasLeaf_ne_nil hb.1.1.1
    cases d with
    | nil =>
      have hk := hd rfl
      have hkname : name ∉ cur.names := hk name (by simp [JEntries.keys])
      obtain ⟨evs1, hsub⟩ := recurse_build sub [name] cur hb.1.1.2
        (fun habs => absurd habs (by simp))
        (fun m0 m' heq => by
          injection heq with h1 h2
          subst h1
          exact ⟨hkname, hsubne⟩)
      obtain ⟨evs2, hrec⟩ := recurse_build rest []
        (cur.app (chainEntries [name] (buildEntries sub))) hb.2
        (fun _ k hkmem => by
          rw [FSEntries.names_app]
          simp only [List.mem_append, not_or]
          refine ⟨hk k (by simp [JEntries.keys, hkmem]), ?_⟩
          intro hmem
          have hkn : k = name := by simpa [chainEntries, FSEntries.names] using hmem
          exact hnm (hkn ▸ hkmem))
        (fun n0 d' habs => absurd habs (by simp))
      refine ⟨evs1 ++ evs2, ?_⟩
      simp only [recurse_structure, List.nil_append, hsub, hrec]
      rw [FSEntries.app_assoc]
      rfl
    | cons n0 d'' =>
      have hn0 : n0 ∉ cur.names := (hd2 n0 d'' rfl).1
      obtain ⟨evs1, hsub⟩ := recurse_build sub ((n0 :: d'') ++ [name]) cur hb.1.1.2
        (fun habs => absurd habs (by simp))
        (fun m0 m' heq => by
          rw [List.cons_append] at heq
          injection heq with h1 h2
          subst h1
          exact ⟨hn0, hsubne⟩)
      rw [chainEntries_append] at hsub
      have hfind : (FSEntry.dir (cur.app (chainEntries (n0 :: d'')
          (chainEntries [name] (buildEntries sub))))).find (n0 :: d'') =
          some (.dir (chainEntries [name] (buildEntries sub))) :=
        chain_find_pre hn0 d'' _
      obtain ⟨evs2, hrec⟩ := recurse_build rest []
        (chainEntries [name] (buildEntries sub)) hb.2
        (fun _ k hkmem => by
          intro hmem
          have hkn : k = name := by simpa [chainEntries, FSEntries.names] using hmem
          exact hnm (hkn ▸ hkmem))
        (fun _ _ habs => absurd habs (by simp))
      have hloc : recurse_structure
          (.dir (cur.app (chainEntries (n0 :: d'')
            (chainEntries [name] (buildEntries sub))))) rest (n0 :: d'') =
          liftRes (.dir (cur.app (chainEntries (n0 :: d'')
            (chainEntries [name] (buildEntries sub))))) (n0 :: d'')
            (recurse_structure (.dir (chainEntries [name] (buildEntries sub))) rest []) := by
        have h := recurse_loc rest hfind []
        rwa [List.append_nil] at h
      refine ⟨evs1 ++ evs2, ?_⟩
      simp only [recurse_structure, hsub, hloc, hrec, liftRes]
      rw [chain_setAt_pre hn0 d'']
      rfl

/-! ### Capture-side predicates and round-trip lemmas -/

theorem capture_cons_file {item : String} {ex : List String}
    (hex : should_exclude item ex = false) (b : List Nat) (rest : FSEntries) :
    directory_to_dict_entries (.cons item (.file b) rest) ex =
      .cons item (.jstr (String.mk (univNl (pyDecodeIgnore b))))
        (directory_to_dict_entries rest ex) := by
  rw [directory_to_dict_entries.eq_def]
  simp only [hex, Bool.false_eq_true, if_false]

theorem capture_cons_dir {item : String} {ex : List String}
    (hex : should_exclude item ex = false) (es2 rest : FSEntries) :
    directory_to_dict_entries (.cons item (.dir es2) rest) ex =
      .cons item (.obj (directory_to_dict_entries es2 ex))
        (directory_to_dict_entries rest ex) := by
  rw [directory_to_dict_entries.eq_def]
  simp only [hex, Bool.false_eq_true, if_false]

theorem buildEntries_jstr (name : String) (s : String) (rest : JEntries) :
    buildEntries (.cons name (.jstr s) rest) =
      .cons name (.file (utf8Encode s)) (buildEntries rest) := rfl

theorem buildEntries_obj (name : String) (sub rest : JEntries) :
    buildEntries (.cons name (.obj sub) rest) =
      .cons name (.dir (buildEntries sub)) (buildEntries rest) := rfl

mutual
/-- Every file in the tree is strictly UTF-8-decodable. -/
def FSEntry.decodableB : FSEntry → Bool
  | .file b => (pyUtf8Decode .strict b).isSome
  | .dir es => es.decodableB
def FSEntries.decodableB : FSEntries → Bool
  | .nil => true
  | .cons _ e rest => e.decodableB && rest.decodableB
end

mutual
/-- Some file occurs in the tree. -/
def FSEntry.hasFileB : FSEntry → Bool
  | .file _ => true
  | .dir es => es.hasFileB
def FSEntries.hasFileB : FSEntries → Bool
  | .nil => false
  | .cons _ e rest => e.hasFileB || rest.hasFileB
end

mutual
/-- Every directory in the tree contains at least one file descendant. -/
def FSEntry.goodDirsB : FSEntry → Bool
  | .file _ => true
  | .dir es => es.hasFileB && es.goodDirsB
def FSEntries.goodDirsB : FSEntries → Bool
  | .nil => true
  | .cons _ e rest => e.goodDirsB && rest.goodDirsB
end

/-- Sibling names are duplicate-free at every level of the tree (as a
real directory listing guarantees). -/
def FSEntries.nodupNamesB : FSEntries → Bool
  | .nil => true
  | .cons n e rest =>
    !(rest.names.contains n) &&
    (match e with
     | .dir es => es.nodupNamesB
     | _ => true) && rest.nodupNamesB

/-- Every string value is a fixed point of universal-newline
translation. -/
def JEntries.normalizedB : JEntries → Bool
  | .nil => true
  | .cons _ v rest =>
    (match v with
     | .jstr s => univNl s.data == s.data
     | .obj sub => sub.normalizedB
     | .other => true) && rest.normalizedB

theorem capture_keys : ∀ (es : FSEntries) {ex : List String},
    (∀ item, should_exclude item ex = false) →
    (directory_to_dict_entries es ex).keys = es.names
  | .nil, _, _ => rfl
  | .cons item e rest, ex, hex => by
    cases e with
    | file b =>
      rw [capture_cons_file (hex item)]
      simp only [JEntries.keys, FSEntries.names, capture_keys rest hex]
    | dir es2 =>
      rw [capture_cons_dir (hex item)]
      simp only [JEntries.keys, FSEntries.names, capture_keys rest hex]

theorem capture_hasLeaf : ∀ (es : FSEntries) {ex : List String},
    (∀ item, should_exclude item ex = false) →
    es.hasFileB = true → (directory_to_dict_entries es ex).hasLeafB = true
  | .nil, _, _, hf => by simp [FSEntries.hasFileB] at hf
  | .cons item e rest, ex, hex, hf => by
    rw [FSEntries.hasFileB] at hf
    cases e with
    | file b =>
      rw [capture_cons_file (hex item)]
      simp [JEntries.hasLeafB]
    | dir es2 =>
      rw [capture_cons_dir (hex item)]
      simp only [JEntries.hasLeafB, Bool.or_eq_true]
      rw [FSEntry.hasFileB, Bool.or_eq_true] at hf
      cases hf with
      | inl h => exact Or.inl (capture_hasLeaf es2 hex h)
      | inr h => exact Or.inr (capture_hasLeaf rest hex h)

theorem capture_buildable : ∀ (es : FSEntries) {ex : List String},
    (∀ item, should_exclude item ex = false) →
    es.nodupNamesB = true → es.goodDirsB = true →
    (directory_to_dict_entries es ex).buildableB = true
  | .nil, _, _, _, _ => rfl
  | .cons item e rest, ex, hex, hnd, hgd => by
    cases e with
    | file b =>
      rw [capture_cons_file (hex item)]
      simp only [FSEntries.nodupNamesB, Bool.and_eq_true, Bool.not_eq_true',
        and_true, true_and] at hnd
      simp only [FSEntries.goodDirsB, FSEntry.goodDirsB, Bool.and_eq_true, true_and] at hgd
      simp only [JEntries.buildableB, Bool.and_eq_true, Bool.not_eq_true', true_and]
      exact ⟨by rw [capture_keys rest hex]; exact hnd.1,
        capture_buildable rest hex hnd.2 hgd⟩
    | dir es2 =>
      rw [capture_cons_dir (hex item)]
      simp only [FSEntries.nodupNamesB, Bool.and_eq_true, Bool.not_eq_true'] at hnd
      simp only [FSEntries.goodDirsB, FSEntry.goodDirsB, Bool.and_eq_true] at hgd
      simp only [JEntries.buildableB, Bool.and_eq_true, Bool.not_eq_true']
      exact ⟨⟨⟨capture_hasLeaf es2 hex hgd.1.1, capture_buildable es2 hex hnd.1.2 hgd.1.2⟩,
        by rw [capture_keys rest hex]; exact hnd.1.1⟩,
        capture_buildable rest hex hnd.2 hgd.2⟩

theorem capture_wellShaped : ∀ (es : FSEntries) {ex : List String},
    (∀ item, should_exclude item ex = false) →
    (directory_to_dict_entries es ex).wellShapedB = true
  | .nil, _, _ => rfl
  | .cons item e rest, ex, hex => by
    cases e with
    | file b =>
      rw [capture_cons_file (hex item)]
      simp only [JEntries.wellShapedB, Bool.and_eq_true, true_and]
      exact capture_wellShaped rest hex
    | dir es2 =>
      rw [capture_cons_dir (hex item)]
      simp only [JEntries.wellShapedB, Bool.and_eq_true]
      exact ⟨capture_wellShaped es2 hex, capture_wellShaped rest hex⟩

theorem capture_normalized : ∀ (es : FSEntries) {ex : List String},
    (∀ item, should_exclude item ex = false) →
    (directory_to_dict_entries es ex).normalizedB = true
  | .nil, _, _ => rfl
  | .cons item e rest, ex, hex => by
    cases e with
    | file b =>
      rw [capture_cons_file (hex item)]
      simp only [JEntries.normalizedB, Bool.and_eq_true]
      refine ⟨?_, capture_normalized rest hex⟩
      simp [univNl_idem]
    | dir es2 =>
      rw [capture_cons_dir (hex item)]
      simp only [JEntries.normalizedB, Bool.and_eq_true]
      exact ⟨capture_normalized es2 hex, capture_normalized rest hex⟩

/-- Capturing the tree a normalized well-shaped document denotes gives
back the document. -/
theorem capture_build_id : ∀ (entries : JEntries) {ex : List String},
    (∀ item, should_exclude item ex = false) →
    entries.wellShapedB = true → entries.normalizedB = true →
    directory_to_dict_entries (buildEntries entries) ex = entries
  | .nil, _, _, _, _ => rfl
  | .cons name v rest, ex, hex, hws, hnor => by
    cases v with
    | other => simp [JEntries.wellShapedB] at hws
    | jstr s =>
      rw [buildEntries_jstr, capture_cons_file (hex name)]
      simp only [JEntries.wellShapedB, Bool.and_eq_true, true_and] at hws
      simp only [JEntries.normalizedB, Bool.and_eq_true] at hnor
      rw [capture_build_id rest hex hws hnor.2]
      have hs : String.mk (univNl (pyDecodeIgnore (utf8Encode s))) = s := by
        rw [pyDecodeIgnore_encode]
        have hn : univNl s.data = s.data := by simpa using hnor.1
        rw [hn]
      rw [hs]
    | obj sub =>
      rw [buildEntries_obj, capture_cons_dir (hex name)]
      simp only [JEntries.wellShapedB, Bool.and_eq_true] at hws
      simp only [JEntries.normalizedB, Bool.and_eq_true] at hnor
      rw [capture_build_id sub hex hws.1 hnor.1,
        capture_build_id rest hex hws.2 hnor.2]

/-! ### C1: round trip -/

/-- C1 as stated is false: a source tree holding one empty directory is
fully decodable and nothing is excluded, it captures to a document with
that directory, but reconciling a fresh root with that document creates
nothing (an empty dict never reaches `update_or_create_file`, the only
place anything is written), so capturing the target yields a different
document. -/
theorem C1_counterexample :
    FSEntries.decodableB (.cons "d" (.dir .nil) .nil) = true ∧
    directory_to_dict (.dir (.cons "d" (.dir .nil) .nil)) [] =
      some (.obj (.cons "d" (.obj .nil) .nil)) ∧
    update_files_from_json (.dir .nil)
      (toStructuredDocument (.obj (.cons "d" (.obj .nil) .nil))) =
      .ok (.dir .nil, []) ∧
    directory_to_dict (.dir .nil) [] ≠ some (.obj (.cons "d" (.obj .nil) .nil)) := by
  refine ⟨rfl, rfl, rfl, ?_⟩
  intro h
  simp only [directory_to_dict, Option.some.injEq, JValue.obj.injEq] at h
  exact JEntries.noConfusion h

/-- C1, amended: the round trip holds provided every directory of the
source tree has at least one file descendant (empty directories are
dropped by reconcile) and sibling names are distinct.  Reconciling a
fresh root with the captured structured document succeeds and the
target's capture is deep-equal to the source's. -/
theorem C1_roundtrip_amended (src : FSEntries) (ex : List String) (doc : JValue)
    (hex : ∀ item, should_exclude item ex = false)
    (hdec : FSEntries.decodableB src = true)
    (hnd : src.nodupNamesB = true)
    (hgd : FSEntries.goodDirsB src = true)
    (hcap : directory_to_dict (.dir src) ex = some doc) :
    ∃ fsT evs,
      update_files_from_json (.dir .nil) (toStructuredDocument doc) = .ok (fsT, evs) ∧
      directory_to_dict fsT ex = some doc := by
  have hdoc : doc = .obj (directory_to_dict_entries src ex) := by
    simpa [directory_to_dict] using hcap.symm
  subst hdoc
  obtain ⟨evs, hrec⟩ := recurse_build (directory_to_dict_entries src ex) [] .nil
    (capture_buildable src hex hnd hgd)
    (fun _ k _ => by simp [FSEntries.names])
    (fun n0 d' habs => absurd habs (by simp))
  refine ⟨.dir (buildEntries (directory_to_dict_entries src ex)), evs, ?_, ?_⟩
  · have h1 : update_files_from_json (.dir .nil)
        (toStructuredDocument (.obj (directory_to_dict_entries src ex))) =
        recurse_structure (.dir .nil) (directory_to_dict_entries src ex) [] := rfl
    rw [h1, hrec]
    rfl
  · rw [directory_to_dict]
    rw [capture_build_id _ hex (capture_wellShaped src hex) (capture_normalized src hex)]

theorem C1_roundtrip_amended_witness :
    ∃ fsT evs,
      update_files_from_json (.dir .nil)
        (toStructuredDocument (.obj (.cons "f" (.jstr "h") .nil))) = .ok (fsT, evs) ∧
      directory_to_dict fsT [] = some (.obj (.cons "f" (.jstr "h") .nil)) :=
  C1_roundtrip_amended (.cons "f" (.file [104]) .nil) [] (.obj (.cons "f" (.jstr "h") .nil))
    (fun _ => rfl) rfl rfl rfl rfl

/-! ### C2: directories for dict nodes -/

/-- Look up a top-level key of a document forest. -/
def JEntries.lookupKey : JEntries → String → Option JValue
  | .nil, _ => none
  | .cons n v rest, k => if n = k then some v else rest.lookupKey k

/-- The sub-forest of a document at a key path (descending through
dict values only). -/
def JEntries.subAt : JEntries → List String → Option JEntries
  | es, [] => some es
  | es, n :: p =>
    match es.lookupKey n with
    | some (.obj sub) => sub.subAt p
    | _ => none

theorem find_parent_dir {fs : FSEntry} {t : List String} {n : String} {x : FSEntry}
    (h : fs.find (t ++ [n]) = some x) : ∃ es, fs.find t = some (.dir es) := by
  rw [FSEntry.find_append] at h
  cases hf : fs.find t with
  | none => rw [hf] at h; cases h
  | some e =>
    rw [hf] at h
    cases e with
    | file b =>
      exact Option.noConfusion h
    | dir es => exact ⟨es, rfl⟩

/-- A successful run over a forest containing a leaf leaves a directory
at the base path. -/
theorem recurse_leaf_dir : ∀ (entries : JEntries) {fs fs' : FSEntry} {t : List String}
    {evs : List Event},
    recurse_structure fs entries t = .ok (fs', evs) →
    entries.hasLeafB = true → ∃ es, fs'.find t = some (.dir es)
  | .nil, fs, fs', t, evs, h, hl => by simp [JEntries.hasLeafB] at hl
  | .cons name v rest, fs, fs', t, evs, h, hl => by
    match v with
    | .other =>
      simp only [recurse_structure] at h
      obtain ⟨e0, he0⟩ := update_other_always_error fs (t ++ [name])
      rw [he0] at h
      cases h
    | .jstr s =>
      simp only [recurse_structure] at h
      cases hu : update_or_create_file fs (t ++ [name]) s with
      | error e => rw [hu] at h; cases h
      | ok x =>
        rw [hu] at h
        match x with
        | (fs1, evs1) =>
          simp only at h
          cases hr2 : recurse_structure fs1 rest t with
          | error e => rw [hr2] at h; cases h
          | ok y =>
            rw [hr2] at h
            match y with
            | (fs2, evs2) =>
              simp only [Except.ok.injEq, Prod.mk.injEq] at h
              obtain ⟨es1, hes1⟩ := update_parents hu (pfx_append t [name]) (by simp)
              obtain ⟨es2, hes2⟩ := recurse_mono_dir rest hr2 hes1
              exact ⟨es2, by rw [← h.1]; exact hes2⟩
    | .obj sub =>
      simp only [recurse_structure] at h
      cases hr1 : recurse_structure fs sub (t ++ [name]) with
      | error e => rw [hr1] at h; cases h
      | ok x =>
        rw [hr1] at h
        match x with
        | (fs1, evs1) =>
          simp only at h
          cases hr2 : recurse_structure fs1 rest t with
          | error e => rw [hr2] at h; cases h
          | ok y =>
            rw [hr2] at h
            match y with
            | (fs2, evs2) =>
              simp only [Except.ok.injEq, Prod.mk.injEq] at h
              rw [JEntries.hasLeafB, Bool.or_eq_true] at hl
              cases hl with
              | inl hsub =>
                obtain ⟨esA, hesA⟩ := recurse_leaf_dir sub hr1 hsub
                obtain ⟨esB, hesB⟩ := find_parent_dir hesA
                obtain ⟨esC, hesC⟩ := recurse_mono_dir rest hr2 hesB
                exact ⟨esC, by rw [← h.1]; exact hesC⟩
              | inr hrest =>
                obtain ⟨esC, hesC⟩ := recurse_leaf_dir rest hr2 hrest
                exact ⟨esC, by rw [← h.1]; exact hesC⟩

/-- After a successful run, every dict child (at any document path)
whose sub-forest contains a leaf exists on disk as a directory. -/
theorem recurse_dir_at : ∀ (entries : JEntries) {fs fs' : FSEntry} {t : List String}
    {evs : List Event} (P : List String) (N : String) {X sub : JEntries},
    recurse_structure fs entries t = .ok (fs', evs) →
    entries.subAt P = some X → X.lookupKey N = some (.obj sub) →
    sub.hasLeafB = true →
    ∃ es, fs'.find (t ++ P ++ [N]) = some (.dir es)
  | .nil, fs, fs', t, evs, P, N, X, sub, h, hsub, hN, hleaf => by
    cases P with
    | nil =>
      simp only [JEntries.subAt, Option.some.injEq] at hsub
      rw [← hsub] at hN
      cases hN
    | cons n0 P' =>
      simp only [JEntries.subAt, JEntries.lookupKey] at hsub
      exact Option.noConfusion hsub
  | .cons name v rest, fs, fs', t, evs, P, N, X, sub, h, hsub, hN, hleaf => by
    match v with
    | .other =>
      simp only [recurse_structure] at h
      obtain ⟨e0, he0⟩ := update_other_always_error fs (t ++ [name])
      rw [he0] at h
      cases h
    | .jstr s =>
      simp only [recurse_structure] at h
      cases hu : update_or_create_file fs (t ++ [name]) s with
      | error e => rw [hu] at h; cases h
      | ok x =>
        rw [hu] at h
        match x with
        | (fs1, evs1) =>
          simp only at h
          cases hr2 : recurse_structure fs1 rest t with
          | error e => rw [hr2] at h; cases h
          | ok y =>
            rw [hr2] at h
            match y with
            | (fs2, evs2) =>
              simp only [Except.ok.injEq, Prod.mk.injEq] at h
              cases P with
              | nil =>
                simp only [JEntries.subAt, Option.some.injEq] at hsub
                rw [← hsub] at hN
                rw [JEntries.lookupKey] at hN
                by_cases hname : name = N
                · rw [if_pos hname] at hN
                  cases hN
                · rw [if_neg hname] at hN
                  obtain ⟨es, hes⟩ := recurse_dir_at rest [] N hr2 rfl hN hleaf
                  exact ⟨es, by rw [← h.1]; exact hes⟩
              | cons n0 P' =>
                simp only [JEntries.subAt, JEntries.lookupKey] at hsub
                by_cases hname : name = n0
                · rw [if_pos hname] at hsub
                  cases hsub
                · rw [if_neg hname] at hsub
                  obtain ⟨es, hes⟩ := recurse_dir_at rest (n0 :: P') N hr2
                    (by rw [JEntries.subAt]; exact hsub) hN hleaf
                  exact ⟨es, by rw [← h.1]; exact hes⟩
    | .obj sub0 =>
      simp only [recurse_structure] at h
      cases hr1 : recurse_structure fs sub0 (t ++ [name]) with
      | error e => rw [hr1] at h; cases h
      | ok x =>
        rw [hr1] at h
        match x with
        | (fs1, evs1) =>
          simp only at h
          cases hr2 : recurse_structure fs1 rest t with
          | error e => rw [hr2] at h; cases h
          | ok y =>
            rw [hr2] at h
            match y with
            | (fs2, evs2) =>
              simp only [Except.ok.injEq, Prod.mk.injEq] at h
              cases P with
              | nil =>
                simp only [JEntries.subAt, Option.some.injEq] at hsub
                rw [← hsub] at hN
                rw [JEntries.lookupKey] at hN
                by_cases hname : name = N
                · rw [if_pos hname, Option.some.injEq] at hN
                  have hsubeq : sub0 = sub := by
                    injection hN.symm with h2
                    exact h2.symm
                  obtain ⟨esA, hesA⟩ := recurse_leaf_dir sub0 hr1 (hsubeq ▸ hleaf)
                  obtain ⟨esB, hesB⟩ := recurse_mono_dir rest hr2 hesA
                  refine ⟨esB, ?_⟩
                  rw [← h.1]
                  rw [← hname]
                  simpa using hesB
                · rw [if_neg hname] at hN
                  obtain ⟨es, hes⟩ := recurse_dir_at rest [] N hr2 rfl hN hleaf
                  exact ⟨es, by rw [← h.1]; exact hes⟩
              | cons n0 P' =>
                simp only [JEntries.subAt, JEntries.lookupKey] at hsub
                by_cases hname : name = n0
                · rw [if_pos hname] at hsub
                  obtain ⟨esA, hesA⟩ := recurse_dir_at sub0 P' N hr1 hsub hN hleaf
                  obtain ⟨esB, hesB⟩ := recurse_mono_dir rest hr2 hesA
                  refine ⟨esB, ?_⟩
                  rw [← h.1]
                  rw [← hname]
                  have hpath : t ++ [name] ++ P' ++ [N] = t ++ (name :: P') ++ [N] := by
                    simp
                  rw [← hpath]
                  exact hesB
                · rw [if_neg hname] at hsub
                  obtain ⟨es, hes⟩ := recurse_dir_at rest (n0 :: P') N hr2
                    (by rw [JEntries.subAt]; exact hsub) hN hleaf
                  exact ⟨es, by rw [← h.1]; exact hes⟩

/-- C2 as stated is false: a dict child with no children produces no
directory.  Reconciling a fresh root with a document holding one empty
dict succeeds with no events, and the directory does not exist. -/
theorem C2_counterexample :
    update_files_from_json (.dir .nil) (.obj (.cons "d" (.obj .nil) .nil)) =
      .ok (.dir .nil, []) ∧
    (FSEntry.dir .nil).find ["d"] = none :=
  ⟨rfl, rfl⟩

/-- C2, amended: after a successful reconcile, every dict child named
`N` of the document node at key path `P` whose sub-forest contains at
least one string leaf exists on disk as the directory `P/N`.  (A dict
child with no leaf descendant — in particular an empty one — need not:
directories are only created on the way to a file write.) -/
theorem C2_dirs_amended {fs fs' : FSEntry} {entries : JEntries} {evs : List Event}
    {P : List String} {N : String} {X sub : JEntries}
    (hrun : update_files_from_json fs (.obj entries) = .ok (fs', evs))
    (hsub : entries.subAt P = some X) (hN : X.lookupKey N = some (.obj sub))
    (hleaf : sub.hasLeafB = true) :
    ∃ es, fs'.find (P ++ [N]) = some (.dir es) := by
  have h : recurse_structure fs entries [] = .ok (fs', evs) := hrun
  obtain ⟨es, hes⟩ := recurse_dir_at entries P N h hsub hN hleaf
  exact ⟨es, by simpa using hes⟩

theorem C2_dirs_amended_witness :
    ∃ es, (FSEntry.dir (.cons "d" (.dir (.cons "f" (.file (utf8Encode "x")) .nil)) .nil)).find
      (([] : List String) ++ ["d"]) = some (.dir es) :=
  @C2_dirs_amended (.dir .nil)
    (.dir (.cons "d" (.dir (.cons "f" (.file (utf8Encode "x")) .nil)) .nil))
    (.cons "d" (.obj (.cons "f" (.jstr "x") .nil)) .nil)
    [Event.createdDir, Event.created] [] "d"
    (.cons "d" (.obj (.cons "f" (.jstr "x") .nil)) .nil)
    (.cons "f" (.jstr "x") .nil)
    rfl rfl rfl rfl

/-! ### C4: the reconcile frame -/

/-- The key paths of the document's string leaves. -/
def JEntries.leafPaths : JEntries → List (List String)
  | .nil => []
  | .cons n v rest =>
    (match v with
     | .jstr _ => [[n]]
     | .obj sub => sub.leafPaths.map (fun p => n :: p)
     | .other => []) ++ rest.leafPaths

/-- The key paths of all document entries (leaves and dict nodes). -/
def JEntries.entryPaths : JEntries → List (List String)
  | .nil => []
  | .cons n v rest =>
    ([n] :: (match v with
     | .obj sub => sub.entryPaths.map (fun p => n :: p)
     | _ => [])) ++ rest.entryPaths

theorem leafPaths_jstr (n : String) (s : String) (rest : JEntries) :
    (JEntries.cons n (.jstr s) rest).leafPaths = [n] :: rest.leafPaths := rfl

theorem leafPaths_obj (n : String) (sub rest : JEntries) :
    (JEntries.cons n (.obj sub) rest).leafPaths =
      sub.leafPaths.map (fun p => n :: p) ++ rest.leafPaths := rfl

theorem entryPaths_jstr (n : String) (s : String) (rest : JEntries) :
    (JEntries.cons n (.jstr s) rest).entryPaths = [n] :: rest.entryPaths := rfl

theorem entryPaths_obj (n : String) (sub rest : JEntries) :
    (JEntries.cons n (.obj sub) rest).entryPaths =
      [n] :: (sub.entryPaths.map (fun p => n :: p) ++ rest.entryPaths) := rfl

theorem pfx_singleton {r : List String} {x : String} (h : pfx r [x] = true) :
    r = [] ∨ r = [x] := by
  match r with
  | [] => exact Or.inl rfl
  | y :: r' =>
    simp only [pfx, Bool.and_eq_true, beq_iff_eq] at h
    right
    rw [h.1, pfx_nil_right h.2]

/-- Every nonempty leading segment of a leaf path is an entry path. -/
theorem entryPaths_of_pfx_leaf : ∀ (entries : JEntries) {q r : List String},
    q ∈ entries.leafPaths → pfx r q = true → r ≠ [] → r ∈ entries.entryPaths
  | .nil, q, r, hq, _, _ => by simp [JEntries.leafPaths] at hq
  | .cons name v rest, q, r, hq, hpfx, hne => by
    match v with
    | .other =>
      rw [show (JEntries.cons name .other rest).leafPaths = rest.leafPaths from rfl] at hq
      rw [show (JEntries.cons name .other rest).entryPaths =
        [name] :: rest.entryPaths from rfl]
      exact List.mem_cons_of_mem _ (entryPaths_of_pfx_leaf rest hq hpfx hne)
    | .jstr s =>
      rw [leafPaths_jstr, List.mem_cons] at hq
      rw [entryPaths_jstr, List.mem_cons]
      cases hq with
      | inl hq =>
        subst hq
        cases pfx_singleton hpfx with
        | inl h0 => exact absurd h0 hne
        | inr h1 => exact Or.inl h1
      | inr hq => exact Or.inr (entryPaths_of_pfx_leaf rest hq hpfx hne)
    | .obj sub =>
      rw [leafPaths_obj, List.mem_append] at hq
      rw [entryPaths_obj, List.mem_cons]
      cases hq with
      | inl hq =>
        rcases List.mem_map.mp hq with ⟨p, hp, hpq⟩
        subst hpq
        match r with
        | [] => exact absurd rfl hne
        | y :: r' =>
          simp only [pfx, Bool.and_eq_true, beq_iff_eq] at hpfx
          by_cases hr0 : r' = []
          · subst hr0
            exact Or.inl (by rw [hpfx.1])
          · right
            rw [List.mem_append]
            left
            rw [hpfx.1]
            exact List.mem_map.mpr ⟨r', entryPaths_of_pfx_leaf sub hp hpfx.2 hr0, rfl⟩
      | inr hq =>
        right
        rw [List.mem_append]
        exact Or.inr (entryPaths_of_pfx_leaf rest hq hpfx hne)

/-- Frame: `recurse_structure` changes `find` only at leading segments of the
file paths it writes. -/
theorem recurse_frame_leaf : ∀ (entries : JEntries) {fs fs' : FSEntry} {t : List String}
    {evs : List Event} {r : List String},
    recurse_structure fs entries t = .ok (fs', evs) →
    (∀ q ∈ entries.leafPaths, pfx r (t ++ q) = false) →
    fs'.find r = fs.find r
  | .nil, fs, fs', t, evs, r, h, _ => by
    simp only [recurse_structure, Except.ok.injEq, Prod.mk.injEq] at h
    rw [← h.1]
  | .cons name v rest, fs, fs', t, evs, r, h, hr => by
    match v with
    | .other =>
      simp only [recurse_structure] at h
      obtain ⟨e0, he0⟩ := update_other_always_error fs (t ++ [name])
      rw [he0] at h
      cases h
    | .jstr s =>
      simp only [recurse_structure] at h
      cases hu : update_or_create_file fs (t ++ [name]) s with
      | error e => rw [hu] at h; cases h
      | ok x =>
        rw [hu] at h
        match x with
        | (fs1, evs1) =>
          simp only at h
          cases hr2 : recurse_structure fs1 rest t with
          | error e => rw [hr2] at h; cases h
          | ok y =>
            rw [hr2] at h
            match y with
            | (fs2, evs2) =>
              simp only [Except.ok.injEq, Prod.mk.injEq] at h
              have h1 : fs1.find r = fs.find r :=
                update_frame hu (hr [name] (by rw [leafPaths_jstr]; exact List.mem_cons_self _ _))
              have h2 : fs2.find r = fs1.find r :=
                recurse_frame_leaf rest hr2
                  (fun q hq => hr q (by rw [leafPaths_jstr]; exact List.mem_cons_of_mem _ hq))
              rw [← h.1, h2, h1]
    | .obj sub =>
      simp only [recurse_structure] at h
      cases hr1 : recurse_structure fs sub (t ++ [name]) with
      | error e => rw [hr1] at h; cases h
      | ok x =>
        rw [hr1] at h
        match x with
        | (fs1, evs1) =>
          simp only at h
          cases hr2 : recurse_structure fs1 rest t with
          | error e => rw [hr2] at h; cases h
          | ok y =>
            rw [hr2] at h
            match y with
            | (fs2, evs2) =>
              simp only [Except.ok.injEq, Prod.mk.injEq] at h
              have h1 : fs1.find r = fs.find r :=
                recurse_frame_leaf sub hr1 (fun p hp => by
                  have := hr (name :: p)
                    (by rw [leafPaths_obj, List.mem_append]
                        exact Or.inl (List.mem_map.mpr ⟨p, hp, rfl⟩))
                  rwa [show t ++ name :: p = (t ++ [name]) ++ p by simp] at this)
              have h2 : fs2.find r = fs1.find r :=
                recurse_frame_leaf rest hr2
                  (fun q hq => hr q (by rw [leafPaths_obj, List.mem_append]; exact Or.inr hq))
              rw [← h.1, h2, h1]

/-- C4: reconcile is additive — any on-disk entry at a nonempty path
absent from the document (not among its entry paths) is still present,
with identical content, after a successful reconcile. -/
theorem C4_nondestructive (entries : JEntries) {fs fs' : FSEntry} {evs : List Event}
    {r : List String} {e : FSEntry}
    (hrun : update_files_from_json fs (.obj entries) = .ok (fs', evs))
    (hne : r ≠ [])
    (habs : r ∉ entries.entryPaths)
    (hf : fs.find r = some e) :
    fs'.find r = some e := by
  have h : recurse_structure fs entries [] = .ok (fs', evs) := hrun
  have hfr : fs'.find r = fs.find r := by
    refine recurse_frame_leaf entries h (fun q hq => ?_)
    rw [List.nil_append]
    cases hp : pfx r q with
    | false => rfl
    | true => exact absurd (entryPaths_of_pfx_leaf entries hq hp hne) habs
  rw [hfr, hf]

theorem C4_nondestructive_witness :
    (FSEntry.dir (.cons "extra.txt" (.file [101]) (.cons "f" (.file (utf8Encode "x")) .nil))).find
      ["extra.txt"] = some (.file [101]) :=
  @C4_nondestructive (.cons "f" (.jstr "x") .nil)
    (.dir (.cons "extra.txt" (.file [101]) .nil))
    (.dir (.cons "extra.txt" (.file [101]) (.cons "f" (.file (utf8Encode "x")) .nil)))
    [Event.created] ["extra.txt"] (.file [101])
    rfl (by simp)
    (by intro hmem
        rw [entryPaths_jstr, show (JEntries.nil : JEntries).entryPaths = [] from rfl] at hmem
        exact absurd hmem (by decide))
    rfl

/-! ### C3: idempotence -/

/-- C3 as stated is false: a document whose string contains a bare
carriage return is rewritten on every run.  The file holds the byte 13;
reading it back with universal newlines yields a line feed, which
differs from the document string, so the second run writes again and
reports an update event instead of zero events. -/
theorem C3_counterexample :
    update_files_from_json (.dir .nil) (.obj (.cons "f" (.jstr "\r") .nil)) =
      .ok (.dir (.cons "f" (.file [13]) .nil), [Event.created]) ∧
    update_files_from_json (.dir (.cons "f" (.file [13]) .nil))
      (.obj (.cons "f" (.jstr "\r") .nil)) =
      .ok (.dir (.cons "f" (.file [13]) .nil), [Event.updated 1 1]) ∧
    ([Event.updated 1 1] : List Event) ≠ [] := by
  refine ⟨rfl, rfl, by simp⟩

/-- C3, amended: reconcile is idempotent for documents whose values are
all strings or dicts, whose keys are duplicate-free at every level (as
`json.load` guarantees), and whose strings contain no carriage return.
After a successful run, running again with the same document yields the
identical tree and zero events. -/
theorem C3_idempotent_amended {entries : JEntries} {fs fs' : FSEntry} {evs : List Event}
    (hws : entries.wellShapedB = true) (hnd : entries.nodupKeysB = true)
    (hcr : entries.crFreeB = true)
    (hrun : update_files_from_json fs (.obj entries) = .ok (fs', evs)) :
    update_files_from_json fs' (.obj entries) = .ok (fs', []) :=
  recurse_idem entries hws hnd hcr hrun

theorem C3_idempotent_amended_witness :
    update_files_from_json (.dir (.cons "f" (.file [104]) .nil))
      (.obj (.cons "f" (.jstr "h") .nil)) =
      .ok (.dir (.cons "f" (.file [104]) .nil), []) :=
  @C3_idempotent_amended (.cons "f" (.jstr "h") .nil) (.dir .nil)
    (.dir (.cons "f" (.file [104]) .nil)) [Event.created] rfl rfl rfl rfl

/-! ### C10: line counts of an update event -/

/-- C10 as stated is false at the empty content: `""` and `"\n"` differ
only in a trailing newline, yet the overwrite reports 0 old lines and 1
new line — `"".splitlines()` is empty while `"\n".splitlines()` has one
element. -/
theorem C10_counterexample :
    update_or_create_file (.dir (.cons "f" (.file []) .nil)) ["f"] "\n" =
      .ok (.dir (.cons "f" (.file [10]) .nil), [Event.updated 0 1]) ∧
    (Event.updated 0 1 ≠ Event.updated 0 0) := by
  refine ⟨rfl, by simp⟩

/-- C10, amended: `str.splitlines` does not count a trailing newline,
so overwriting content `old` with `old ++ "\n"` reports equal old and
new line counts — provided `old` is nonempty and does not itself end in
a line break (for empty `old` the counts are 0 and 1).  The write does
occur: the file afterwards holds the new bytes. -/
theorem C10_trailing_newline_amended {fs fs' : FSEntry} {q : List String} {old : String}
    {evs : List Event}
    (hold : fs.readText q = some old)
    (hend : lastNotBreak old.data = true)
    (hrun : update_or_create_file fs q (old ++ "\n") = .ok (fs', evs)) :
    evs = [Event.updated (pySplitlines old).length (pySplitlines old).length] ∧
    fs'.find q = some (.file (utf8Encode (old ++ "\n"))) := by
  unfold FSEntry.readText at hold
  cases hf : fs.find q with
  | none => rw [hf] at hold; cases hold
  | some x =>
    rw [hf] at hold
    cases x with
    | dir es => simp at hold
    | file b =>
      simp only at hold
      cases hdec : pyUtf8Decode .strict b with
      | none => rw [hdec] at hold; cases hold
      | some cs =>
        rw [hdec] at hold
        simp only [Option.some.injEq] at hold
        have hds : (fs.find q.dropLast).isSome = true := FSEntry.find_dropLast_isSome hf
        have hne : old ≠ old ++ "\n" := by
          intro he
          have hlen := congrArg (fun t => t.data.length) he
          simp [String.data_append] at hlen
        rcases update_cases hrun with ⟨fs1, evs1, hstep, hmain⟩
        have hfs1 : fs1 = fs ∧ evs1 = [] := by
          rcases hstep with ⟨h1, h2, _⟩ | ⟨hds', _, _⟩
          · exact ⟨h1, h2⟩
          · rw [hds] at hds'; cases hds'
        obtain ⟨hfs1, hevs1⟩ := hfs1
        subst hfs1 hevs1
        rcases hmain with ⟨b2, cs2, hf2, hdec2, hcase⟩ | ⟨hf2, _, _⟩
        · rw [hf] at hf2
          injection hf2 with hf2
          injection hf2 with hb2
          subst hb2
          rw [hdec] at hdec2
          injection hdec2 with hcs2
          subst hcs2
          rw [hold] at hcase
          rcases hcase with ⟨heq, _, _⟩ | ⟨_, hw, hevs⟩
          · exact absurd heq hne
          · refine ⟨?_, FSEntry.writeFile_find hw⟩
            rw [hevs, pySplitlines_append_nl old hend]
            rfl
        · rw [hf] at hf2; cases hf2

theorem C10_trailing_newline_amended_witness :
    ([Event.updated 1 1] : List Event) =
      [Event.updated (pySplitlines "h").length (pySplitlines "h").length] ∧
    (FSEntry.dir (.cons "f" (.file [104, 10]) .nil)).find ["f"] =
      some (.file (utf8Encode ("h" ++ "\n"))) := by
  have h := @C10_trailing_newline_amended (.dir (.cons "f" (.file [104]) .nil))
    (.dir (.cons "f" (.file [104, 10]) .nil)) ["f"] "h"
    [Event.updated 1 1] rfl rfl rfl
  exact ⟨by rw [← h.1], h.2⟩

/-! ### C5: the capture decode policy -/

/-- C5 as stated is false: capture decodes with `errors='ignore'`, which
drops invalid byte sequences instead of replacing them.  On the bytes
`[255, 104]` capture stores `"h"`, while a replacement policy would
store U+FFFD followed by `h`. -/
theorem C5_counterexample :
    directory_to_dict (.dir (.cons "f" (.file [255, 104]) .nil)) [] =
      some (.obj (.cons "f" (.jstr "h") .nil)) ∧
    pyDecodeReplace [255, 104] = ['�', 'h'] ∧
    ("h" : String) ≠ String.mk ['�', 'h'] := by
  refine ⟨rfl, rfl, by decide⟩

/-- C5, amended: for every file entry, capture decodes the bytes with
the `errors='ignore'` policy — invalid byte sequences are dropped, not
replaced — this decode never fails, and the leaf stores the resulting
(universal-newline translated) string. -/
theorem C5_capture_lossy_amended (b : List Nat) (item : String) (rest : FSEntries)
    {ex : List String} (hex : should_exclude item ex = false) :
    (pyUtf8Decode .ignore b).isSome = true ∧
    directory_to_dict_entries (.cons item (.file b) rest) ex =
      .cons item (.jstr (String.mk (univNl (pyDecodeIgnore b))))
        (directory_to_dict_entries rest ex) :=
  ⟨pyUtf8Decode_isSome (by intro h; cases h) b, capture_cons_file hex b rest⟩

theorem C5_capture_lossy_amended_witness :
    (pyUtf8Decode .ignore [255, 104]).isSome = true ∧
    directory_to_dict_entries (.cons "f" (.file [255, 104]) .nil) [] =
      .cons "f" (.jstr (String.mk (univNl (pyDecodeIgnore [255, 104]))))
        (directory_to_dict_entries .nil []) :=
  C5_capture_lossy_amended [255, 104] "f" .nil rfl

/-! ### C6: loading the exclusion file -/

/-- C6 as stated is false on an existing but undecodable exclusion
file: the path exists, yet `load_exclusions` raises a decode error
instead of returning the file's lines. -/
theorem C6_counterexample :
    ((FSEntry.dir (.cons "x" (.file [255]) .nil)).find ["x"]).isSome = true ∧
    ∀ pats : List String,
      load_exclusions (.dir (.cons "x" (.file [255]) .nil)) ["x"] ≠ .ok pats := by
  refine ⟨rfl, fun pats h => ?_⟩
  have he : load_exclusions (.dir (.cons "x" (.file [255]) .nil)) ["x"] =
      .error .unicodeDecodeError := rfl
  rw [he] at h
  cases h

/-- C6, amended: a missing path yields the empty pattern list without
error, and an existing strictly-decodable file yields its
(universal-newline translated) lines in order; but an existing file
that is not valid UTF-8 raises a decode error, and a directory at the
path raises IsADirectoryError. -/
theorem C6_load_exclusions_amended (fs : FSEntry) (p : List String) :
    (fs.find p = none → load_exclusions fs p = .ok []) ∧
    (∀ b cs, fs.find p = some (.file b) → pyUtf8Decode .strict b = some cs →
      load_exclusions fs p = .ok (pySplitlines (String.mk (univNl cs)))) ∧
    (∀ b, fs.find p = some (.file b) → pyUtf8Decode .strict b = none →
      load_exclusions fs p = .error .unicodeDecodeError) ∧
    (∀ es, fs.find p = some (.dir es) → load_exclusions fs p = .error .isADirectoryError) := by
  refine ⟨fun h => ?_, fun b cs h1 h2 => ?_, fun b h1 h2 => ?_, fun es h1 => ?_⟩
  · unfold load_exclusions
    rw [h]
  · unfold load_exclusions
    rw [h1]
    simp only []
    rw [h2]
  · unfold load_exclusions
    rw [h1]
    simp only []
    rw [h2]
  · unfold load_exclusions
    rw [h1]

theorem C6_load_exclusions_amended_witness :
    load_exclusions (.dir .nil) ["missing"] = .ok [] ∧
    load_exclusions (.dir (.cons "e" (.file [97, 10, 98]) .nil)) ["e"] =
      .ok (pySplitlines (String.mk (univNl [Char.ofNat 97, Char.ofNat 10, Char.ofNat 98]))) := by
  refine ⟨(C6_load_exclusions_amended (.dir .nil) ["missing"]).1 rfl, ?_⟩
  exact (C6_load_exclusions_amended (.dir (.cons "e" (.file [97, 10, 98]) .nil)) ["e"]).2.1
    [97, 10, 98] [Char.ofNat 97, Char.ofNat 10, Char.ofNat 98] rfl rfl

/-! ### C9: strict read during reconcile vs lossy read during capture -/

/-- C9: when a document leaf's target path exists with bytes that are
not valid UTF-8, reconcile's read-back (strict UTF-8) raises a decode
error — while capture's `errors='ignore'` decode of the same bytes
succeeds, so reconcile can fail on a tree capture handles. -/
theorem C9_reconcile_strict (fs : FSEntry) {q : List String} {b : List Nat} (s : String)
    (hf : fs.find q = some (.file b)) (hd : (fs.find q.dropLast).isSome = true)
    (hdec : pyUtf8Decode .strict b = none) :
    update_or_create_file fs q s = .error .unicodeDecodeError ∧
    (pyUtf8Decode .ignore b).isSome = true := by
  constructor
  · unfold update_or_create_file
    simp only [hd, if_true, hf, hdec]
  · exact pyUtf8Decode_isSome (by intro h; cases h) b

theorem C9_reconcile_strict_witness :
    update_or_create_file (.dir (.cons "f" (.file [255]) .nil)) ["f"] "x" =
      .error .unicodeDecodeError ∧
    (pyUtf8Decode .ignore [255]).isSome = true :=
  C9_reconcile_strict (.dir (.cons "f" (.file [255]) .nil)) "x" rfl rfl rfl

/-! ### C8: malformed documents -/

/-- The document parses into the expected nested-mapping shape: a dict
at top level, and every value a string or a dict. -/
def JValue.wellShapedB : JValue → Bool
  | .obj entries => entries.wellShapedB
  | _ => false

/-- Errors: `update_or_create_file` never raises the malformed-document error:
its failures are decode, is-a-directory or I/O errors. -/
theorem update_error_kind {fs : FSEntry} {q : List String} {s : String} {e : PyErr}
    (h : update_or_create_file fs q s = .error e) : e ≠ .malformedDocument := by
  simp only [update_or_create_file] at h
  by_cases hd : (fs.find q.dropLast).isSome = true
  · rw [if_pos hd] at h
    simp only [] at h
    repeat' split at h
    all_goals try cases h
    all_goals decide
  · rw [if_neg hd] at h
    cases hm : fs.makedirs q.dropLast with
    | none =>
      rw [hm] at h
      simp only [] at h
      cases h
      decide
    | some fs1 =>
      rw [hm] at h
      simp only [] at h
      repeat' split at h
      all_goals try cases h
      all_goals decide

/-- A run over a well-shaped forest never fails with the
malformed-document error. -/
theorem recurse_wellshaped_no_malformed : ∀ (entries : JEntries) {fs : FSEntry}
    {t : List String} {e : PyErr},
    entries.wellShapedB = true →
    recurse_structure fs entries t = .error e → e ≠ .malformedDocument
  | .nil, fs, t, e, _, h => by cases h
  | .cons name v rest, fs, t, e, hws, h => by
    match v with
    | .other => simp [JEntries.wellShapedB] at hws
    | .jstr s =>
      simp only [JEntries.wellShapedB, Bool.and_eq_true, true_and] at hws
      simp only [recurse_structure] at h
      cases hu : update_or_create_file fs (t ++ [name]) s with
      | error e0 =>
        rw [hu] at h
        simp only [Except.error.injEq] at h
        rw [← h]
        exact update_error_kind hu
      | ok x =>
        rw [hu] at h
        match x with
        | (fs1, evs1) =>
          simp only at h
          cases hr2 : recurse_structure fs1 rest t with
          | error e0 =>
            rw [hr2] at h
            simp only [Except.error.injEq] at h
            rw [← h]
            exact recurse_wellshaped_no_malformed rest hws hr2
          | ok y =>
            rw [hr2] at h
            match y with
            | (fs2, evs2) => cases h
    | .obj sub =>
      simp only [JEntries.wellShapedB, Bool.and_eq_true] at hws
      simp only [recurse_structure] at h
      cases hr1 : recurse_structure fs sub (t ++ [name]) with
      | error e0 =>
        rw [hr1] at h
        simp only [Except.error.injEq] at h
        rw [← h]
        exact recurse_wellshaped_no_malformed sub hws.1 hr1
      | ok x =>
        rw [hr1] at h
        match x with
        | (fs1, evs1) =>
          simp only at h
          cases hr2 : recurse_structure fs1 rest t with
          | error e0 =>
            rw [hr2] at h
            simp only [Except.error.injEq] at h
            rw [← h]
            exact recurse_wellshaped_no_malformed rest hws.2 hr2
          | ok y =>
            rw [hr2] at h
            match y with
            | (fs2, evs2) => cases h

/-- A run over an ill-shaped forest always fails. -/
theorem recurse_illformed : ∀ (entries : JEntries) (fs : FSEntry) (t : List String),
    entries.wellShapedB = false → ∃ er, recurse_structure fs entries t = .error er
  | .nil, fs, t, hws => by simp [JEntries.wellShapedB] at hws
  | .cons name v rest, fs, t, hws => by
    match v with
    | .other =>
      obtain ⟨e0, he0⟩ := update_other_always_error fs (t ++ [name])
      exact ⟨e0, by simp only [recurse_structure, he0]⟩
    | .jstr s =>
      simp only [JEntries.wellShapedB, Bool.true_and] at hws
      cases hu : update_or_create_file fs (t ++ [name]) s with
      | error e0 =>
        refine ⟨e0, ?_⟩
        simp only [recurse_structure, hu]
      | ok x =>
        match x with
        | (fs1, evs1) =>
          obtain ⟨er, her⟩ := recurse_illformed rest fs1 t hws
          refine ⟨er, ?_⟩
          simp only [recurse_structure, hu, her]
    | .obj sub =>
      cases hsw : sub.wellShapedB with
      | false =>
        obtain ⟨er, her⟩ := recurse_illformed sub fs (t ++ [name]) hsw
        refine ⟨er, ?_⟩
        simp only [recurse_structure, her]
      | true =>
        have hrw : rest.wellShapedB = false := by
          rw [JEntries.wellShapedB, hsw, Bool.true_and] at hws
          exact hws
        cases hr1 : recurse_structure fs sub (t ++ [name]) with
        | error e0 =>
          refine ⟨e0, ?_⟩
          simp only [recurse_structure, hr1]
        | ok x =>
          match x with
          | (fs1, evs1) =>
            obtain ⟨er, her⟩ := recurse_illformed rest fs1 t hrw
            refine ⟨er, ?_⟩
            simp only [recurse_structure, hr1, her]

/-- C8 as stated is false: an ill-shaped document need not fail with
the malformed-document error.  First tree: the document has a
non-string, non-dict value under key `g`, but the leaf `f` is processed
first and its existing target holds undecodable bytes, so the run
raises the decode error.  Second tree: the offending value `g` is the
only entry, and its target is an existing directory — the value flows
down the ordinary update path, whose read of the target raises
IsADirectoryError at the offending entry itself, still not the
malformed-document error. -/
theorem C8_counterexample :
    JValue.wellShapedB (.obj (.cons "f" (.jstr "x") (.cons "g" .other .nil))) = false ∧
    update_files_from_json (.dir (.cons "f" (.file [255]) .nil))
      (.obj (.cons "f" (.jstr "x") (.cons "g" .other .nil))) =
      .error .unicodeDecodeError ∧
    PyErr.unicodeDecodeError ≠ PyErr.malformedDocument ∧
    JValue.wellShapedB (.obj (.cons "g" .other .nil)) = false ∧
    update_files_from_json (.dir (.cons "g" (.dir .nil) .nil))
      (.obj (.cons "g" .other .nil)) = .error .isADirectoryError ∧
    PyErr.isADirectoryError ≠ PyErr.malformedDocument := by
  refine ⟨rfl, rfl, by decide, rfl, rfl, by decide⟩

/-- C8, amended: an ill-shaped document always makes reconcile fail,
but not necessarily with the malformed-document error.  The top level
not being a dict raises it (no file is touched); a non-string,
non-dict value inside a dict flows down the same update path as a
string, so the run raises whatever that path hits — the strict decode
error or IsADirectoryError from reading an existing target, or an I/O
error — and only when the write itself is reached does the non-string
content raise `TypeError` (reported under the spec's taxonomy as the
malformed-document error), as the fourth conjunct shows for a
top-level value with an absent, writable target.  A well-shaped
document never produces the malformed-document error. -/
theorem C8_malformed_amended (fs : FSEntry) (doc : JValue) :
    ((∀ entries, doc ≠ .obj entries) →
      update_files_from_json fs doc = .error .malformedDocument) ∧
    (doc.wellShapedB = false → ∀ r, update_files_from_json fs doc ≠ .ok r) ∧
    (doc.wellShapedB = true → ∀ e, update_files_from_json fs doc = .error e →
      e ≠ .malformedDocument) ∧
    (∀ n rest fs2, fs.find [n] = none → fs.writeFile [n] [] = some fs2 →
      update_files_from_json fs (.obj (.cons n .other rest)) =
        .error .malformedDocument) := by
  refine ⟨fun hne => ?_, fun hws r hok => ?_, fun hws e herr => ?_, fun n rest fs2 hfn hw => ?_⟩
  · cases doc with
    | obj entries => exact absurd rfl (hne entries)
    | jstr s => rfl
    | other => rfl
  · cases doc with
    | jstr s => cases hok
    | other => cases hok
    | obj entries =>
      rw [JValue.wellShapedB] at hws
      obtain ⟨er, her⟩ := recurse_illformed entries fs [] hws
      have : update_files_from_json fs (.obj entries) =
          recurse_structure fs entries [] := rfl
      rw [this, her] at hok
      cases hok
  · cases doc with
    | jstr s => simp [JValue.wellShapedB] at hws
    | other => simp [JValue.wellShapedB] at hws
    | obj entries =>
      rw [JValue.wellShapedB] at hws
      exact recurse_wellshaped_no_malformed entries hws herr
  · have hstep : update_or_create_file_other fs [n] = .error .malformedDocument := by
      simp only [update_or_create_file_other]
      rw [show ([n] : List String).dropLast = [] from rfl, FSEntry.find_nil]
      simp only [Option.isSome_some, if_true]
      rw [hfn]
      simp only
      rw [hw]
    have hufj : update_files_from_json fs (.obj (.cons n .other rest)) =
        recurse_structure fs (.cons n .other rest) [] := rfl
    rw [hufj]
    simp only [recurse_structure, List.nil_append, hstep]

theorem C8_malformed_amended_witness :
    update_files_from_json (.dir .nil) (.jstr "x") = .error .malformedDocument ∧
    update_files_from_json (.dir .nil) (.obj (.cons "g" .other .nil)) =
      .error .malformedDocument :=
  ⟨(C8_malformed_amended (.dir .nil) (.jstr "x")).1 (fun entries h => JValue.noConfusion h),
   (C8_malformed_amended (.dir .nil) (.obj (.cons "g" .other .nil))).2.2.2 "g" .nil
     (.dir (.cons "g" (.file []) .nil)) rfl rfl⟩

/-! ### C7: the flat markdown document -/

theorem md_items_file {item : String} {ex : List String}
    (hex : should_exclude item ex = false) (b : List Nat) (rest : FSEntries) (path : String) :
    directory_to_markdown_items (.cons item (.file b) rest) ex path =
      mdFileSection (path ++ "/" ++ item) item b ::
        directory_to_markdown_items rest ex path := by
  rw [directory_to_markdown_items.eq_def]
  simp only [hex, Bool.false_eq_true, if_false]

theorem md_items_dir {item : String} {ex : List String}
    (hex : should_exclude item ex = false) (es2 rest : FSEntries) (path : String) :
    directory_to_markdown_items (.cons item (.dir es2) rest) ex path =
      strJoin "\n" (directory_to_markdown_items es2 ex (path ++ "/" ++ item)) ::
        directory_to_markdown_items rest ex path := by
  rw [directory_to_markdown_items.eq_def]
  simp only [hex, Bool.false_eq_true, if_false]

/-- The flat document as the spec describes it: the depth-first list of
per-file sections, in capture order, one section per file leaf, with no
item contributed by a directory. -/
def specFileSections : FSEntries → List String → String → List String
  | .nil, _, _ => []
  | .cons item e rest, exclusions, path =>
    if should_exclude item exclusions then specFileSections rest exclusions path
    else
      match e with
      | .dir es =>
        specFileSections es exclusions (path ++ "/" ++ item) ++
          specFileSections rest exclusions path
      | .file b =>
        mdFileSection (path ++ "/" ++ item) item b ::
          specFileSections rest exclusions path

/-- The spec's flat document: the file sections joined by a single
blank line (each section ends in a newline; the join adds one more). -/
def specFlatDocument (es : FSEntries) (exclusions : List String) (path : String) : String :=
  strJoin "\n" (specFileSections es exclusions path)

theorem spec_sections_file {item : String} {ex : List String}
    (hex : should_exclude item ex = false) (b : List Nat) (rest : FSEntries) (path : String) :
    specFileSections (.cons item (.file b) rest) ex path =
      mdFileSection (path ++ "/" ++ item) item b :: specFileSections rest ex path := by
  rw [specFileSections.eq_def]
  simp only [hex, Bool.false_eq_true, if_false]

theorem spec_sections_dir {item : String} {ex : List String}
    (hex : should_exclude item ex = false) (es2 rest : FSEntries) (path : String) :
    specFileSections (.cons item (.dir es2) rest) ex path =
      specFileSections es2 ex (path ++ "/" ++ item) ++ specFileSections rest ex path := by
  rw [specFileSections.eq_def]
  simp only [hex, Bool.false_eq_true, if_false]

theorem strJoin_cons_ne (sep x : String) {ys : List String} (h : ys ≠ []) :
    strJoin sep (x :: ys) = x ++ sep ++ strJoin sep ys := by
  match ys with
  | [] => exact absurd rfl h
  | y :: rest => rfl

theorem strJoin_append (sep : String) : ∀ {xs ys : List String}, xs ≠ [] → ys ≠ [] →
    strJoin sep (xs ++ ys) = strJoin sep xs ++ sep ++ strJoin sep ys
  | [], _, hx, _ => absurd rfl hx
  | [x], ys, _, hy => by
    rw [List.singleton_append, strJoin_cons_ne sep x hy]
    rfl
  | x1 :: x2 :: xs, ys, _, hy => by
    rw [List.cons_append, strJoin_cons_ne sep x1 (by simp),
      strJoin_cons_ne sep x1 (by simp)]
    rw [strJoin_append sep (by simp) hy]
    simp [String.append_assoc]

theorem md_items_ne_nil : ∀ (es : FSEntries) {ex : List String} (path : String),
    (∀ item, should_exclude item ex = false) → es ≠ .nil →
    directory_to_markdown_items es ex path ≠ []
  | .nil, _, _, _, hne => absurd rfl hne
  | .cons item e rest, ex, path, hex, _ => by
    cases e with
    | file b => rw [md_items_file (hex item)]; simp
    | dir es2 => rw [md_items_dir (hex item)]; simp

theorem spec_sections_ne_nil : ∀ (es : FSEntries) {ex : List String} (path : String),
    (∀ item, should_exclude item ex = false) → es.hasFileB = true →
    specFileSections es ex path ≠ []
  | .nil, _, _, _, hf => by simp [FSEntries.hasFileB] at hf
  | .cons item e rest, ex, path, hex, hf => by
    rw [FSEntries.hasFileB] at hf
    cases e with
    | file b => rw [spec_sections_file (hex item)]; simp
    | dir es2 =>
      rw [spec_sections_dir (hex item)]
      rw [FSEntry.hasFileB, Bool.or_eq_true] at hf
      intro hc
      cases hf with
      | inl h =>
        exact spec_sections_ne_nil es2 (path ++ "/" ++ item) hex h
          (List.append_eq_nil.mp hc).1
      | inr h =>
        exact spec_sections_ne_nil rest path hex h (List.append_eq_nil.mp hc).2

theorem spec_goodDirs_ne_nil : ∀ (es : FSEntries) {ex : List String} (path : String),
    (∀ item, should_exclude item ex = false) → es ≠ .nil → es.goodDirsB = true →
    specFileSections es ex path ≠ []
  | .nil, _, _, _, hne, _ => absurd rfl hne
  | .cons item e rest, ex, path, hex, _, hgd => by
    rw [FSEntries.goodDirsB, Bool.and_eq_true] at hgd
    cases e with
    | file b => rw [spec_sections_file (hex item)]; simp
    | dir es2 =>
      rw [spec_sections_dir (hex item)]
      rw [FSEntry.goodDirsB, Bool.and_eq_true] at hgd
      intro hc
      exact spec_sections_ne_nil es2 (path ++ "/" ++ item) hex hgd.1.1
        (List.append_eq_nil.mp hc).1

/-- With nothing excluded and every directory containing a file, the
`'\n'.join` of the per-level items equals the join of the flattened
per-file sections. -/
theorem md_join_eq_spec : ∀ (es : FSEntries) {ex : List String} (path : String),
    (∀ item, should_exclude item ex = false) → es.goodDirsB = true →
    strJoin "\n" (directory_to_markdown_items es ex path) =
      strJoin "\n" (specFileSections es ex path)
  | .nil, _, _, _, _ => rfl
  | .cons item e rest, ex, path, hex, hgd => by
    rw [FSEntries.goodDirsB, Bool.and_eq_true] at hgd
    cases e with
    | file b =>
      rw [md_items_file (hex item), spec_sections_file (hex item)]
      cases hrest : rest with
      | nil => rfl
      | cons item2 e2 rest2 =>
        rw [← hrest]
        have hrne : rest ≠ .nil := by
          rw [hrest]
          exact fun hc => FSEntries.noConfusion hc
        rw [strJoin_cons_ne "\n" _ (md_items_ne_nil rest path hex hrne),
          strJoin_cons_ne "\n" _ (spec_goodDirs_ne_nil rest path hex hrne hgd.2),
          md_join_eq_spec rest path hex hgd.2]
    | dir es2 =>
      rw [md_items_dir (hex item), spec_sections_dir (hex item)]
      rw [FSEntry.goodDirsB, Bool.and_eq_true] at hgd
      have hspec2 : specFileSections es2 ex (path ++ "/" ++ item) ≠ [] :=
        spec_sections_ne_nil es2 (path ++ "/" ++ item) hex hgd.1.1
      cases hrest : rest with
      | nil =>
        rw [show directory_to_markdown_items FSEntries.nil ex path = ([] : List String)
            from rfl,
          show specFileSections FSEntries.nil ex path = ([] : List String) from rfl,
          List.append_nil]
        rw [show ∀ z : String, strJoin "\n" [z] = z from fun z => rfl]
        exact md_join_eq_spec es2 (path ++ "/" ++ item) hex hgd.1.2
      | cons item2 e2 rest2 =>
        rw [← hrest]
        have hrne : rest ≠ .nil := by
          rw [hrest]
          exact fun hc => FSEntries.noConfusion hc
        rw [strJoin_cons_ne "\n" _ (md_items_ne_nil rest path hex hrne),
          md_join_eq_spec es2 (path ++ "/" ++ item) hex hgd.1.2,
          md_join_eq_spec rest path hex hgd.2,
          strJoin_append "\n" hspec2 (spec_goodDirs_ne_nil rest path hex hrne hgd.2)]

/-- C7 as stated is false: a directory with no included files still
contributes an item — the empty string — to `markdown_content`, so the
`'\n'.join` inserts an extra blank line not between two sections.  Here
the code's output is a newline followed by the spec's output. -/
theorem C7_counterexample :
    directory_to_markdown (.cons "d" (.dir .nil) (.cons "b" (.file []) .nil)) [] "." =
      "\n" ++ specFlatDocument (.cons "d" (.dir .nil) (.cons "b" (.file []) .nil)) [] "." ∧
    directory_to_markdown (.cons "d" (.dir .nil) (.cons "b" (.file []) .nil)) [] "." ≠
      specFlatDocument (.cons "d" (.dir .nil) (.cons "b" (.file []) .nil)) [] "." := by
  refine ⟨rfl, by decide⟩

/-- C7, amended: when nothing is excluded and every directory of the
tree contains at least one file descendant, the flat document is
exactly the depth-first concatenation of one section per file — a
heading with the file's full path and a fenced block tagged `python`
iff the extension is `.py` — consecutive sections separated by a single
blank line, with no contribution from directories.  A directory with no
included files breaks this by contributing an empty item to the join. -/
theorem C7_flat_amended (es : FSEntries) {ex : List String} (path : String)
    (hex : ∀ item, should_exclude item ex = false)
    (hgd : es.goodDirsB = true) :
    directory_to_markdown es ex path = specFlatDocument es ex path :=
  md_join_eq_spec es path hex hgd

theorem C7_flat_amended_witness :
    directory_to_markdown (.cons "a.py" (.file [104]) .nil) [] "." =
      specFlatDocument (.cons "a.py" (.file [104]) .nil) [] "." :=
  C7_flat_amended (.cons "a.py" (.file [104]) .nil) "." (fun _ => rfl) rfl
